import Mathlib

/-!
Verification of the mapproxy seeding engine (`mapproxy/core/seed_ng.py`).

The Python code is shallowly embedded: Python ints are `ℤ`/`ℕ`, Python
floats are exact rationals `ℚ` together with an explicit IEEE-754
round-to-nearest-even step where a float operation rounds, exceptions are
`Option`/`Except`, and the recursive traversal `_seed` is a structurally
recursive function on the remaining level count producing an explicit
trace (frames entered, progress lines printed, work items emitted,
coverage-predicate calls made).
-/

namespace Mapproxy

/-- Axis-aligned bounding box `(minx, miny, maxx, maxy)` over exact
rationals, as used throughout `seed_ng.py`. -/
structure BBox where
  minx : ℚ
  miny : ℚ
  maxx : ℚ
  maxy : ℚ
deriving DecidableEq, Repr

/-- A meta-tile coordinate: `(x, y)` position at a zoom `level`.  The
traversal in `seed_ng.py` treats meta-tiles as opaque grid cells; the
`M×M` inner grouping of real tiles never matters to it. -/
structure Tile where
  x : ℤ
  y : ℤ
  level : ℕ
deriving DecidableEq, Repr

/-- Modelled from the spec: `bbox_intersects` is imported from
`mapproxy.core.grid`, which is not part of the sources.  Per spec §4.2 the
coverage predicate reports DISJOINT iff the interiors do not overlap, so
two boxes intersect iff their interiors overlap (all comparisons strict). -/
def bbox_intersects (one two : BBox) : Bool :=
  decide (one.minx < two.maxx) && decide (one.maxx > two.minx) &&
  decide (one.miny < two.maxy) && decide (one.maxy > two.miny)

/-- Modelled from the spec: `bbox_contains` is imported from
`mapproxy.core.grid`, which is not part of the sources.  Per spec §4.2
CONTAINED holds iff every point of the candidate lies in the target,
inclusive of the boundary. -/
def bbox_contains (one two : BBox) : Bool :=
  decide (one.minx ≤ two.minx) && decide (one.maxx ≥ two.maxx) &&
  decide (one.miny ≤ two.miny) && decide (one.maxy ≥ two.maxy)

/-- The `intersects` closure of `TileSeeder._seed_location`
(seed_ng.py lines 116-119): `-1` for contained, `1` for intersecting,
`0` for disjoint. -/
def intersects (bbox sub_bbox : BBox) : ℤ :=
  if bbox_contains bbox sub_bbox then -1
  else if bbox_intersects bbox sub_bbox then 1
  else 0

/-! ### The grid model

Modelled from the spec: `MetaGrid` lives in `mapproxy.core.grid`, which is
not part of the sources.  Per spec §4.1 and the glossary, the grid is a
quad-tree pyramid (4× tiles per level step); we model the world as the
unit square `[0,1]²`, with `2^l × 2^l` meta-tiles of side `1/2^l` at level
`l`.  `affected_level_tiles` returns the meta-tiles whose interiors
overlap the query box, in row-major order, and reports coordinates outside
the valid range of the level as `none` ("absent" placeholders, spec §4.1),
which consumers must skip. -/

/-- A coordinate is valid at level `l` when `0 ≤ c < 2^l`. -/
def valid_coord (l : ℕ) (c : ℤ) : Bool :=
  decide (0 ≤ c) && decide (c < 2 ^ l)

/-- Both coordinates of the tile are inside the grid at its level. -/
def validTile (t : Tile) : Bool :=
  valid_coord t.level t.x && valid_coord t.level t.y

/-- `MetaGrid.meta_bbox`: the projected box of a meta-tile. -/
def meta_bbox (t : Tile) : BBox :=
  ⟨(t.x : ℚ) / 2 ^ t.level, (t.y : ℚ) / 2 ^ t.level,
   ((t.x : ℚ) + 1) / 2 ^ t.level, ((t.y : ℚ) + 1) / 2 ^ t.level⟩

/-- Integer coordinates of the level-`l` cells whose interior overlaps the
interval `(a, b)`: all `c` with `c/2^l < b` and `a < (c+1)/2^l`. -/
def coordRange (a b : ℚ) (l : ℕ) : List ℤ :=
  (List.range (⌈b * 2 ^ l⌉ - ⌊a * 2 ^ l⌋).toNat).map
    (fun k : ℕ => ⌊a * 2 ^ l⌋ + (k : ℤ))

/-- `MetaGrid.get_affected_level_tiles` (modelled from the spec): the
meta-tiles at level `l` overlapping `bb`, row-major, with out-of-range
cells reported as `none` placeholders. -/
def get_affected_level_tiles (bb : BBox) (l : ℕ) : List (Option Tile) :=
  (coordRange bb.miny bb.maxy l).flatMap (fun y =>
    (coordRange bb.minx bb.maxx l).map (fun x =>
      if validTile ⟨x, y, l⟩ then some ⟨x, y, l⟩ else none))

/-! ### status_symbol (seed_ng.py lines 169-183) -/

/-- `symbols = list(' .oO0')`. -/
def pySymbols : List Char := [' ', '.', 'o', 'O', '0']

/-- Python list indexing: negative indices count from the end, an index
out of `[-len, len)` raises `IndexError` (modelled as `none`). -/
def pyListIndex (l : List Char) (k : ℤ) : Option Char :=
  if 0 ≤ k then l.get? k.toNat
  else if 0 ≤ k + l.length then l.get? (k + l.length).toNat
  else none

/-- `status_symbol(i, total)`.  The file has `from __future__ import
division`, so `i/(total/4)` is float division; at every input reached here
the IEEE double computation and the exact rational computation produce the
same ceiling (the quotient is at least `0.1` away from the nearest integer
whenever it is not exactly representable), so the division is modelled
exactly over `ℚ`.  A `ZeroDivisionError` (when `total = 0` and the guard
falls through) and an `IndexError` are modelled as `none`. -/
def status_symbol (i total : ℤ) : Option Char :=
  let i2 := i + 1
  if 0 < i2 ∧ i2 > total then some 'X'
  else if total = 0 then none
  else pyListIndex pySymbols ⌈(i2 : ℚ) / ((total : ℚ) / 4)⌉

/-- The character actually interpolated into a seed id by `_seed`; inside
the traversal `0 ≤ i < total` always holds, so the lookup never fails. -/
def statusSymbolChar (i total : ℤ) : Char :=
  (status_symbol i total).getD '?'

/-! ### IEEE-double model of `int(num_seed_levels * 0.7)`
(seed_ng.py line 112) -/

/-- The IEEE-754 double nearest `0.7` (the Python literal `0.7`), exactly:
`3152519739159347 / 2^52`. -/
def d07 : ℚ := 3152519739159347 / 2 ^ 52

/-- `⌊log₂ n⌋` computed with explicit fuel (so that it reduces in the
kernel). -/
def log2fuel : ℕ → ℕ → ℕ
  | 0, _ => 0
  | f + 1, n => if n < 2 then 0 else log2fuel f (n / 2) + 1

/-- Binary exponent of a rational in `[1/2, ∞)`: the unique `e` with
`2^e ≤ v < 2^(e+1)`. -/
def floatExp (v : ℚ) : ℤ :=
  if ⌊v⌋ ≤ 0 then -1 else (log2fuel ⌊v⌋.toNat ⌊v⌋.toNat : ℤ)

/-- Round a rational to the nearest integer, ties to even. -/
def roundHalfEvenInt (m : ℚ) : ℤ :=
  if m - ⌊m⌋ < 1 / 2 then ⌊m⌋
  else if (1 : ℚ) / 2 < m - ⌊m⌋ then ⌊m⌋ + 1
  else if ⌊m⌋ % 2 = 0 then ⌊m⌋ else ⌊m⌋ + 1

/-- Round a positive rational in `[1/2, 2^53)` to the nearest IEEE-754
double (round to nearest, ties to even). -/
def roundToDouble (v : ℚ) : ℚ :=
  ((roundHalfEvenInt (v * (2 : ℚ) ^ ((52 : ℤ) - floatExp v)) : ℚ)) *
    (2 : ℚ) ^ (floatExp v - (52 : ℤ))

/-- The Python float `num_seed_levels * 0.7`: the exact product of the
integer with the double `0.7`, rounded once to double precision. -/
def pyMul07 (n : ℕ) : ℚ :=
  if n = 0 then 0 else roundToDouble (n * d07)

/-- `int(num_seed_levels * 0.7)`: truncation toward zero, which on this
nonnegative value is the floor. -/
def pyInt07 (n : ℕ) : ℤ := ⌊pyMul07 n⌋

/-- `report_till_level = level[0] + int(num_seed_levels * 0.7)`
(seed_ng.py line 112). -/
def report_till_level (lo hi : ℕ) : ℤ :=
  (lo : ℤ) + pyInt07 (hi - lo + 1)

/-! ### exp_backoff (seed_ng.py lines 23-38) -/

/-- Transcript of one `exp_backoff` run: the final outcome (`return
result` or the re-raised exception), how often `func` was invoked, and the
list of sleeps performed, in seconds, in order. -/
structure BackoffRun (ε α : Type) where
  outcome : Except ε α
  calls : ℕ
  sleeps : List ℕ

/-- The `while True` loop of `exp_backoff`.  `func k` is the outcome of
the `k`-th invocation of `func`; `recov e` says whether the exception `e`
is an instance of the `exceptions` tuple (anything else propagates
uncaught); `fuel` is `max_repeat - 1 - n`, so `fuel = 0` means the next
caught failure satisfies `(n+1) >= max_repeat` and re-raises. -/
def exp_backoff_go {ε α : Type} (func : ℕ → Except ε α) (recov : ε → Bool)
    (start_backoff_sec : ℕ) : ℕ → ℕ → BackoffRun ε α
  | n, fuel =>
    match func n with
    | Except.ok a => ⟨Except.ok a, 1, []⟩
    | Except.error e =>
      if recov e then
        match fuel with
        | 0 => ⟨Except.error e, 1, []⟩
        | f + 1 =>
          let r := exp_backoff_go func recov start_backoff_sec (n + 1) f
          ⟨r.outcome, r.calls + 1, (start_backoff_sec * 2 ^ n) :: r.sleeps⟩
      else ⟨Except.error e, 1, []⟩

/-- `exp_backoff(func, max_repeat, start_backoff_sec, exceptions)`. -/
def exp_backoff {ε α : Type} (func : ℕ → Except ε α) (max_repeat : ℕ)
    (start_backoff_sec : ℕ) (recov : ε → Bool) : BackoffRun ε α :=
  exp_backoff_go func recov start_backoff_sec 0 (max_repeat - 1)

/-- The error classes relevant to `SeedWorker.run`. -/
inductive SeedError
  | tileSource
  | io
  | other
deriving DecidableEq, Repr

/-- The `exceptions=(TileSourceError, IOError)` tuple passed by
`SeedWorker.run` (seed_ng.py line 76). -/
def seed_worker_exceptions : SeedError → Bool
  | SeedError.tileSource => true
  | SeedError.io => true
  | SeedError.other => false

/-- `SeedWorker.run`'s call
`exp_backoff(load_tiles, exceptions=(TileSourceError, IOError))`, with the
default `max_repeat=10` and `start_backoff_sec=2`. -/
def seed_worker_load (loadResults : ℕ → Except SeedError Unit) :
    BackoffRun SeedError Unit :=
  exp_backoff loadResults 10 2 seed_worker_exceptions

/-! ### The recursive traversal `_seed` (seed_ng.py lines 121-146) -/

/-- Trace of a `_seed` call: every frame entered (level, bbox,
full-intersect flag, in entry order), the progress lines printed, the work
items handed to `seed_pool.seed` in submission order, and the number of
calls made to the `intersects` coverage predicate. -/
structure SeedRun where
  frames : List (ℕ × BBox × Bool)
  prints : List (ℕ × BBox × Bool)
  emits : List (List Char × List (Option Tile))
  relCalls : ℕ
deriving DecidableEq, Repr

/-- The `sub_seeds` list built by `_seed` (lines 128-135): each non-`None`
subtile's meta bbox paired with its `intersection` value, keeping only
those with `intersection != 0`; a `full_intersect` frame assigns `-1`
without calling the predicate. -/
def sub_seeds (bbox : BBox) (full_intersect : Bool)
    (subtiles : List (Option Tile)) : List (BBox × ℤ) :=
  subtiles.filterMap (fun o =>
    match o with
    | none => none
    | some st =>
      let sub_bbox := meta_bbox st
      let intersection := if full_intersect then -1 else intersects bbox sub_bbox
      if intersection = 0 then none else some (sub_bbox, intersection))

/-- A `_seed` frame at `level = max_level`: it prints its progress line
when due and submits its batch, but does not descend (the `level <
max_level` guard fails) and makes no predicate call. -/
def seedLeaf (rt : ℤ) (cur_bbox : BBox) (level : ℕ) (id : List Char)
    (full_intersect : Bool) : SeedRun :=
  { frames := [(level, cur_bbox, full_intersect)]
    prints := if (level : ℤ) ≤ rt then [(level, cur_bbox, full_intersect)] else []
    emits := [(id, get_affected_level_tiles cur_bbox level)]
    relCalls := 0 }

/-- A `_seed` frame at `level < max_level`: it classifies each non-absent
subtile, recurses (via `rec`, the frame one level deeper) on those with a
nonzero intersection with the child's `seed_id` extended by
`status_symbol(i, total)` and `full_intersect = (intersection == -1)`, and
finally submits its own `(id, subtiles)` batch. -/
def seedNode (bbox : BBox) (rt : ℤ)
    (rec : BBox → ℕ → List Char → Bool → SeedRun)
    (cur_bbox : BBox) (level : ℕ) (id : List Char) (full_intersect : Bool) :
    SeedRun :=
  let subtiles := get_affected_level_tiles cur_bbox level
  let ss := sub_seeds bbox full_intersect subtiles
  let children := ss.enum.map (fun p =>
    rec p.2.1 (level + 1) (id ++ [statusSymbolChar (p.1 : ℤ) (ss.length : ℤ)])
      (decide (p.2.2 = -1)))
  { frames := (level, cur_bbox, full_intersect) ::
      (children.map SeedRun.frames).flatten
    prints := (if (level : ℤ) ≤ rt then [(level, cur_bbox, full_intersect)] else [])
      ++ (children.map SeedRun.prints).flatten
    emits := (children.map SeedRun.emits).flatten ++ [(id, subtiles)]
    relCalls := (if full_intersect then 0
        else (subtiles.filterMap (fun o => o)).length)
      + (children.map SeedRun.relCalls).sum }

/-- `_seed(cur_bbox, level, max_level, id, full_intersect)` with
`fuel = max_level - level` remaining descent steps. -/
def seedAux (bbox : BBox) (rt : ℤ) : ℕ → BBox → ℕ → List Char → Bool → SeedRun
  | 0 => seedLeaf rt
  | f + 1 => seedNode bbox rt (seedAux bbox rt f)

/-- The whole traversal of `_seed_location`:
`_seed(bbox, level[0], level[1])` with the report cutoff computed once as
`level[0] + int(num_seed_levels * 0.7)`. -/
def seed_location_run (bbox : BBox) (lo hi : ℕ) : SeedRun :=
  seedAux bbox (report_till_level lo hi) (hi - lo) bbox lo [] false

/-- All real (non-placeholder) meta-tiles inside the emitted work items,
with multiplicity, in emission order. -/
def emittedTiles (r : SeedRun) : List Tile :=
  (r.emits.map (fun e => e.2.filterMap (fun o => o))).flatten

/-- The meta-tile one level up that contains this one (floor division of
both coordinates by 2). -/
def parentTile (t : Tile) : Tile :=
  ⟨t.x / 2, t.y / 2, t.level - 1⟩

/-- `k`-fold iterated parent. -/
def ancAt : ℕ → Tile → Tile
  | 0, t => t
  | k + 1, t => ancAt k (parentTile t)

/-- Specification predicate (proved, below, to characterize the traversal):
meta-tile `t` is emitted inside the subtree rooted at the frame that
descends into tile `c` (the frame whose `cur_bbox` is `meta_bbox c`, at
level `c.level + 1`) when `f` further descent steps remain: `t` lies
strictly below `c` in the pyramid, within reach of the remaining fuel, its
ancestor chain passes through `c`, and every strict ancestor of `t` below
`c` overlaps the target `B` (those are the frames the recursion descends
into). -/
def emittedInSubtree (B : BBox) (f : ℕ) (c t : Tile) : Prop :=
  validTile t = true ∧ c.level < t.level ∧ t.level ≤ c.level + 1 + f ∧
  ancAt (t.level - c.level) t = c ∧
  (∀ j, j < t.level - c.level → 0 < j →
    bbox_intersects B (meta_bbox (ancAt j t)) = true)

instance (B : BBox) (f : ℕ) (c t : Tile) :
    Decidable (emittedInSubtree B f c t) := by
  unfold emittedInSubtree
  infer_instance

/-! ### SeedPool / SeedWorker queue model (seed_ng.py lines 40-76)

The pool owns a FIFO shared by `N` worker processes.  The traversal is the
single producer; `stop()` enqueues one `(None, None)` sentinel per worker
after all real items.  Worker scheduling is modelled cooperatively: a
schedule is an arbitrary list of worker indices, and the indexed worker
performs the next atomic dequeue (consuming a sentinel kills it, a real
item is processed immediately). -/

/-- A queue entry: `some (seed_id, tiles)` for a real work item, `none`
for the `(None, None)` sentinel. -/
abbrev QItem := Option (List Char × List (Option Tile))

/-- What `SeedWorker.run` does with one dequeued entry (`dry_run=False`):
exit on the sentinel, otherwise hand the dequeued `tiles` list, unchanged,
to `cache.cache_mgr.load_tile_coords` under `exp_backoff`. -/
inductive WorkerAction
  | exit
  | load (tiles : List (Option Tile))
deriving DecidableEq, Repr

/-- One `SeedWorker.run` loop iteration on a dequeued entry. -/
def seed_worker_step (item : QItem) : WorkerAction :=
  match item with
  | none => WorkerAction.exit
  | some (_, tiles) => WorkerAction.load tiles

/-- The queue contents produced by one `_seed_location` run: every real
item in submission order, then the `len(self.procs)` sentinels enqueued by
`SeedPool.stop` (lines 54-56). -/
def seed_pool_trace (emitted : List (List Char × List (Option Tile)))
    (numProcs : ℕ) : List QItem :=
  emitted.map some ++ List.replicate numProcs none

/-- Observable state of one worker process. -/
structure WorkerSt where
  alive : Bool
  processed : List (List Char × List (Option Tile))
  sentinels : ℕ
deriving DecidableEq, Repr

/-- Worker `w` performs one dequeue, if it exists, is alive, and the queue
is nonempty; otherwise nothing happens (a dead worker never dequeues, an
empty queue blocks). -/
def pool_step (s : List WorkerSt × List QItem) (w : ℕ) :
    List WorkerSt × List QItem :=
  match s.1.get? w with
  | none => s
  | some st =>
    if st.alive then
      match s.2 with
      | [] => s
      | none :: rest =>
        (s.1.set w { st with alive := false, sentinels := st.sentinels + 1 }, rest)
      | some it :: rest =>
        (s.1.set w { st with processed := st.processed ++ [it] }, rest)
    else s

/-- Run the pool under a given schedule of dequeue turns. -/
def pool_run (ws : List WorkerSt) (queue : List QItem) (sched : List ℕ) :
    List WorkerSt × List QItem :=
  sched.foldl pool_step (ws, queue)

/-- The `size` freshly started workers of `SeedPool.__init__`. -/
def init_workers (n : ℕ) : List WorkerSt :=
  List.replicate n ⟨true, [], 0⟩

/-! ## Helper lemmas on lists -/

theorem count_flatten {α : Type} [DecidableEq α] (a : α) (l : List (List α)) :
    l.flatten.count a = (l.map (List.count a)).sum := by
  induction l with
  | nil => simp
  | cons x xs ih => simp [List.count_append, ih]

theorem count_flatMap {α β : Type} [DecidableEq β] (a : β) (g : α → List β)
    (l : List α) : (l.flatMap g).count a = (l.map (fun x => (g x).count a)).sum := by
  induction l with
  | nil => simp
  | cons x xs ih => simp [List.count_append, ih]

theorem filter_flatten {α : Type} (p : α → Bool) (l : List (List α)) :
    l.flatten.filter p = (l.map (List.filter p)).flatten := by
  induction l with
  | nil => simp
  | cons x xs ih => simp [List.filter_append, ih]

theorem filterMap_flatMap {α β γ : Type} (g : α → List β) (f : β → Option γ)
    (l : List α) : (l.flatMap g).filterMap f = l.flatMap (fun x => (g x).filterMap f) := by
  induction l with
  | nil => simp
  | cons x xs ih => simp [List.filterMap_append, ih]

theorem flatten_map_flatten {α β : Type} (g : α → List β) (L : List (List α)) :
    (L.flatten.map g).flatten = (L.map (fun l => (l.map g).flatten)).flatten := by
  induction L with
  | nil => simp
  | cons x xs ih =>
    simp only [List.flatten_cons, List.map_append, List.flatten_append, List.map_cons]
    rw [ih]

theorem filter_flatten_map_congr {α β : Type} (p : β → Bool)
    (g h : α → List β) (l : List α)
    (hpt : ∀ a ∈ l, (g a).filter p = h a) :
    ((l.map g).flatten).filter p = (l.map h).flatten := by
  rw [filter_flatten, List.map_map]
  exact congrArg List.flatten (List.map_congr_left (fun a ha => hpt a ha))

theorem count_eq_ite_of_nodup {α : Type} [DecidableEq α] {l : List α}
    (h : l.Nodup) (a : α) : l.count a = if a ∈ l then 1 else 0 := by
  induction l with
  | nil => simp
  | cons b t ih =>
    rcases List.nodup_cons.mp h with ⟨hb, ht⟩
    by_cases hab : a = b
    · subst hab
      simp [List.count_cons_self, List.count_eq_zero.mpr hb]
    · simp [List.count_cons, hab, ih ht, List.mem_cons]

theorem exists_enumFrom_pair {α : Type} {a : α} :
    ∀ {l : List α} (n : ℕ), a ∈ l → ∃ p ∈ l.enumFrom n, p.2 = a := by
  intro l
  induction l with
  | nil => intro n h; simp at h
  | cons x t ih =>
    intro n h
    rcases List.mem_cons.mp h with h | h
    · exact ⟨(n, x), by simp [List.enumFrom], h.symm⟩
    · rcases ih (n + 1) h with ⟨p, hp, hpa⟩
      exact ⟨p, by simp [List.enumFrom, hp], hpa⟩

theorem sum_map_enumFrom_eq {α : Type} (φ : ℕ × α → ℕ) (g : α → ℕ) :
    ∀ (l : List α) (n : ℕ), (∀ p : ℕ × α, p.2 ∈ l → φ p = g p.2) →
    ((l.enumFrom n).map φ).sum = (l.map g).sum := by
  intro l
  induction l with
  | nil => intro n _; simp
  | cons x t ih =>
    intro n h
    simp only [List.enumFrom, List.map_cons, List.sum_cons]
    rw [h (n, x) (by simp), ih (n + 1) (fun p hp => h p (by simp [hp]))]

theorem sum_indicator_zero {α : Type} (P : α → Prop) [DecidablePred P]
    (Q : α → Bool) (l : List α) (h : ∀ a ∈ l, ¬ P a) :
    ((l.filter Q).map (fun a => if P a then 1 else 0)).sum = 0 := by
  apply List.sum_eq_zero
  intro x hx
  rcases List.mem_map.mp hx with ⟨a, ha, rfl⟩
  simp [h a (List.mem_of_mem_filter ha)]

theorem sum_indicator_unique {α : Type} [DecidableEq α] (P : α → Prop)
    [DecidablePred P] (Q : α → Bool) (key : α) :
    ∀ (l : List α), l.Nodup → (∀ a ∈ l, P a → a = key) →
    ((l.filter Q).map (fun a => if P a then 1 else 0)).sum =
      if ∃ a ∈ l, Q a = true ∧ P a then 1 else 0 := by
  intro l
  induction l with
  | nil => intro _ _; simp
  | cons x t ih =>
    intro hnd hkey
    rcases List.nodup_cons.mp hnd with ⟨hx, ht⟩
    by_cases hQ : Q x = true
    · by_cases hP : P x
      · have hx_key : x = key := hkey x (by simp) hP
        have hzero : ((t.filter Q).map (fun a => if P a then 1 else 0)).sum = 0 := by
          apply sum_indicator_zero
          intro a ha hPa
          have : a = key := hkey a (by simp [ha]) hPa
          exact hx (by rwa [hx_key, ← this])
        have hex : ∃ a ∈ x :: t, Q a = true ∧ P a := ⟨x, by simp, hQ, hP⟩
        simp [List.filter_cons, hQ, hP, hzero, hex]
      · have : (∃ a ∈ x :: t, Q a = true ∧ P a) ↔ ∃ a ∈ t, Q a = true ∧ P a := by
          constructor
          · rintro ⟨a, ha, hqa, hpa⟩
            rcases List.mem_cons.mp ha with rfl | ha
            · exact absurd hpa hP
            · exact ⟨a, ha, hqa, hpa⟩
          · rintro ⟨a, ha, hqa, hpa⟩
            exact ⟨a, by simp [ha], hqa, hpa⟩
        rw [if_congr this rfl rfl,
          ← ih ht (fun a ha hPa => hkey a (by simp [ha]) hPa)]
        simp [List.filter_cons, hQ, hP]
    · have : (∃ a ∈ x :: t, Q a = true ∧ P a) ↔ ∃ a ∈ t, Q a = true ∧ P a := by
        constructor
        · rintro ⟨a, ha, hqa, hpa⟩
          rcases List.mem_cons.mp ha with rfl | ha
          · exact absurd hqa (by simp [hQ])
          · exact ⟨a, ha, hqa, hpa⟩
        · rintro ⟨a, ha, hqa, hpa⟩
          exact ⟨a, by simp [ha], hqa, hpa⟩
      rw [if_congr this rfl rfl,
        ← ih ht (fun a ha hPa => hkey a (by simp [ha]) hPa)]
      simp [List.filter_cons, hQ]

theorem sum_le_length : ∀ (l : List ℕ), (∀ x ∈ l, x ≤ 1) → l.sum ≤ l.length := by
  intro l
  induction l with
  | nil => simp
  | cons x t ih =>
    intro h
    have hx : x ≤ 1 := h x (by simp)
    have := ih (fun y hy => h y (by simp [hy]))
    simp only [List.sum_cons, List.length_cons]
    omega

theorem all_eq_one_of_sum_eq_length :
    ∀ (l : List ℕ), (∀ x ∈ l, x ≤ 1) → l.sum = l.length → ∀ x ∈ l, x = 1 := by
  intro l
  induction l with
  | nil => simp
  | cons y t ih =>
    intro h hsum x hx
    have hy : y ≤ 1 := h y (by simp)
    have htle : t.sum ≤ t.length := sum_le_length t (fun z hz => h z (by simp [hz]))
    have hy1 : y = 1 := by
      simp only [List.sum_cons, List.length_cons] at hsum
      omega
    have htsum : t.sum = t.length := by
      simp only [List.sum_cons, List.length_cons] at hsum
      omega
    rcases List.mem_cons.mp hx with rfl | hx
    · exact hy1
    · exact ih (fun z hz => h z (by simp [hz])) htsum x hx

/-! ## The affected-tiles computation -/

theorem mem_coordRange {a b : ℚ} {l : ℕ} {x : ℤ} :
    x ∈ coordRange a b l ↔ ⌊a * 2 ^ l⌋ ≤ x ∧ x < ⌈b * 2 ^ l⌉ := by
  unfold coordRange
  constructor
  · intro h
    rcases List.mem_map.mp h with ⟨k, hk, rfl⟩
    have := List.mem_range.mp hk
    omega
  · rintro ⟨h1, h2⟩
    refine List.mem_map.mpr ⟨(x - ⌊a * 2 ^ l⌋).toNat, List.mem_range.mpr ?_, ?_⟩
    · omega
    · omega

theorem coordRange_nodup (a b : ℚ) (l : ℕ) : (coordRange a b l).Nodup := by
  unfold coordRange
  refine List.Nodup.map ?_ (List.nodup_range _)
  intro k1 k2 h
  dsimp only at h
  omega

theorem mem_coordRange_iff {a b : ℚ} {l : ℕ} {x : ℤ} :
    x ∈ coordRange a b l ↔ a < ((x : ℚ) + 1) / 2 ^ l ∧ (x : ℚ) / 2 ^ l < b := by
  have h2 : (0 : ℚ) < 2 ^ l := by positivity
  rw [mem_coordRange]
  constructor
  · rintro ⟨h1, h2'⟩
    constructor
    · rw [lt_div_iff₀ h2]
      have : a * 2 ^ l < (x : ℚ) + 1 := by
        have := Int.floor_le_iff.mp h1
        linarith
      linarith
    · rw [div_lt_iff₀ h2]
      have := Int.lt_ceil.mp h2'
      linarith
  · rintro ⟨h1, h2'⟩
    constructor
    · rw [Int.floor_le_iff]
      rw [lt_div_iff₀ h2] at h1
      linarith
    · rw [Int.lt_ceil]
      rw [div_lt_iff₀ h2] at h2'
      linarith

theorem mem_affected {bb : BBox} {l : ℕ} {t : Tile} :
    some t ∈ get_affected_level_tiles bb l ↔
      t.level = l ∧ validTile t = true ∧ bbox_intersects bb (meta_bbox t) = true := by
  unfold get_affected_level_tiles
  rw [List.mem_flatMap]
  constructor
  · rintro ⟨y, hy, hmem⟩
    rcases List.mem_map.mp hmem with ⟨x, hx, hfx⟩
    by_cases hv : validTile ⟨x, y, l⟩
    · rw [if_pos hv] at hfx
      obtain rfl : t = ⟨x, y, l⟩ := by
        injection hfx.symm
      refine ⟨rfl, hv, ?_⟩
      rcases mem_coordRange_iff.mp hx with ⟨hx1, hx2⟩
      rcases mem_coordRange_iff.mp hy with ⟨hy1, hy2⟩
      simp only [bbox_intersects, meta_bbox, Bool.and_eq_true, decide_eq_true_eq]
      exact ⟨⟨⟨hx1, hx2⟩, hy1⟩, hy2⟩
    · rw [if_neg hv] at hfx
      exact absurd hfx (by simp)
  · rintro ⟨hl, hv, hov⟩
    subst hl
    simp only [bbox_intersects, meta_bbox, Bool.and_eq_true, decide_eq_true_eq] at hov
    obtain ⟨⟨⟨hx1, hx2⟩, hy1⟩, hy2⟩ := hov
    refine ⟨t.y, mem_coordRange_iff.mpr ⟨hy1, hy2⟩, List.mem_map.mpr
      ⟨t.x, mem_coordRange_iff.mpr ⟨hx1, hx2⟩, ?_⟩⟩
    rw [if_pos]
    exact hv

theorem count_row {l : ℕ} (y : ℤ) (t : Tile) :
    ∀ (xs : List ℤ), xs.Nodup →
    (xs.filterMap (fun x =>
        if validTile ⟨x, y, l⟩ then some ⟨x, y, l⟩ else none)).count t =
      if t.y = y ∧ t.level = l ∧ validTile t = true ∧ t.x ∈ xs then 1 else 0 := by
  obtain ⟨tx, ty, tl⟩ := t
  intro xs
  induction xs with
  | nil => simp
  | cons x rest ih =>
    intro hnd
    rcases List.nodup_cons.mp hnd with ⟨hx, hrest⟩
    rw [List.filterMap_cons]
    by_cases hv : validTile ⟨x, y, l⟩
    · rw [if_pos hv]
      rw [List.count_cons, ih hrest]
      simp only [beq_iff_eq, Tile.mk.injEq, List.mem_cons]
      dsimp only
      by_cases hm : x = tx ∧ y = ty ∧ l = tl
      · obtain ⟨hmx, hmy, hml⟩ := hm
        have hteq : (⟨tx, ty, tl⟩ : Tile) = ⟨x, y, l⟩ := by
          rw [← hmx, ← hmy, ← hml]
        have hcr : ¬(ty = y ∧ tl = l ∧
            validTile ⟨tx, ty, tl⟩ = true ∧ tx ∈ rest) := by
          rintro ⟨-, -, -, hmem⟩
          refine hx ?_
          rw [hmx]
          exact hmem
        have hcc : (ty = y ∧ tl = l ∧
            validTile ⟨tx, ty, tl⟩ = true ∧ (tx = x ∨ tx ∈ rest)) := by
          refine ⟨hmy.symm, hml.symm, ?_, Or.inl hmx.symm⟩
          rw [hteq]
          exact hv
        rw [if_neg hcr, if_pos ⟨hmx, hmy, hml⟩, if_pos hcc]
      · have hiff : (ty = y ∧ tl = l ∧
            validTile ⟨tx, ty, tl⟩ = true ∧ (tx = x ∨ tx ∈ rest)) ↔
            (ty = y ∧ tl = l ∧
            validTile ⟨tx, ty, tl⟩ = true ∧ tx ∈ rest) := by
          constructor
          · rintro ⟨h1, h2, h3, h4 | h4⟩
            · exact absurd ⟨h4.symm, h1.symm, h2.symm⟩ hm
            · exact ⟨h1, h2, h3, h4⟩
          · rintro ⟨h1, h2, h3, h4⟩
            exact ⟨h1, h2, h3, Or.inr h4⟩
        rw [if_neg hm, if_congr hiff rfl rfl]
        omega
    · rw [if_neg hv, ih hrest]
      simp only [List.mem_cons]
      dsimp only
      have hiff : (ty = y ∧ tl = l ∧
          validTile ⟨tx, ty, tl⟩ = true ∧ (tx = x ∨ tx ∈ rest)) ↔
          (ty = y ∧ tl = l ∧
          validTile ⟨tx, ty, tl⟩ = true ∧ tx ∈ rest) := by
        constructor
        · rintro ⟨h1, h2, h3, h4 | h4⟩
          · exfalso
            have hteq : (⟨tx, ty, tl⟩ : Tile) = ⟨x, y, l⟩ := by
              rw [← h4, ← h1, ← h2]
            rw [hteq] at h3
            exact hv h3
          · exact ⟨h1, h2, h3, h4⟩
        · rintro ⟨h1, h2, h3, h4⟩
          exact ⟨h1, h2, h3, Or.inr h4⟩
      rw [if_congr hiff rfl rfl]

theorem sum_ite_key {α : Type} [DecidableEq α] (a : α) (C : Prop) [Decidable C] :
    ∀ (l : List α), l.Nodup →
    (l.map (fun y => if a = y ∧ C then 1 else 0)).sum = if a ∈ l ∧ C then 1 else 0 := by
  intro l
  induction l with
  | nil => simp
  | cons y t ih =>
    intro hnd
    rcases List.nodup_cons.mp hnd with ⟨hy, ht⟩
    simp only [List.map_cons, List.sum_cons]
    by_cases hay : a = y
    · subst hay
      have hzero : (t.map (fun y => if a = y ∧ C then 1 else 0)).sum = 0 := by
        apply List.sum_eq_zero
        intro n hn
        rcases List.mem_map.mp hn with ⟨z, hz, rfl⟩
        have : ¬(a = z ∧ C) := fun ⟨hc, _⟩ => hy (hc ▸ hz)
        simp [this]
      rw [hzero]
      have hmem : a ∈ a :: t := by simp
      by_cases hC : C
      · rw [if_pos ⟨rfl, hC⟩, if_pos ⟨hmem, hC⟩]
      · rw [if_neg (fun h => hC h.2), if_neg (fun h => hC h.2)]
    · rw [if_neg (fun h => hay h.1), ih ht]
      have hiff : (a ∈ t ∧ C) ↔ (a ∈ y :: t ∧ C) := by
        constructor
        · rintro ⟨hm, hC⟩
          exact ⟨by simp [hm], hC⟩
        · rintro ⟨hm, hC⟩
          rcases List.mem_cons.mp hm with rfl | hm
          · exact absurd rfl hay
          · exact ⟨hm, hC⟩
      rw [if_congr hiff rfl rfl]
      omega

theorem overlap_iff_coords {bb : BBox} {t : Tile} :
    bbox_intersects bb (meta_bbox t) = true ↔
      t.x ∈ coordRange bb.minx bb.maxx t.level ∧
      t.y ∈ coordRange bb.miny bb.maxy t.level := by
  rw [mem_coordRange_iff, mem_coordRange_iff]
  simp only [bbox_intersects, meta_bbox, Bool.and_eq_true, decide_eq_true_eq,
    gt_iff_lt]
  tauto

theorem count_some_affected (bb : BBox) (l : ℕ) (t : Tile) :
    ((get_affected_level_tiles bb l).filterMap (fun o => o)).count t =
      if t.level = l ∧ validTile t = true ∧ bbox_intersects bb (meta_bbox t) = true
      then 1 else 0 := by
  unfold get_affected_level_tiles
  rw [filterMap_flatMap, count_flatMap]
  have hrow : ∀ y ∈ coordRange bb.miny bb.maxy l,
      (fun y => ((((coordRange bb.minx bb.maxx l).map (fun x =>
        if validTile ⟨x, y, l⟩ then some ⟨x, y, l⟩ else none)).filterMap
          (fun o => o)).count t)) y =
      (fun y => if t.y = y ∧ (t.level = l ∧ validTile t = true ∧
        t.x ∈ coordRange bb.minx bb.maxx l) then 1 else 0) y := by
    intro y _
    dsimp only
    rw [List.filterMap_map]
    exact count_row (l := l) y t _ (coordRange_nodup _ _ _)
  rw [List.map_congr_left hrow]
  rw [sum_ite_key t.y _ _ (coordRange_nodup _ _ _)]
  have hiff : (t.y ∈ coordRange bb.miny bb.maxy l ∧ t.level = l ∧
      validTile t = true ∧ t.x ∈ coordRange bb.minx bb.maxx l) ↔
      (t.level = l ∧ validTile t = true ∧
        bbox_intersects bb (meta_bbox t) = true) := by
    constructor
    · rintro ⟨hy, hl, hvld, hx⟩
      refine ⟨hl, hvld, ?_⟩
      rw [overlap_iff_coords, hl]
      exact ⟨hx, hy⟩
    · rintro ⟨hl, hvld, hov⟩
      rw [overlap_iff_coords, hl] at hov
      exact ⟨hov.2, hl, hvld, hov.1⟩
  rw [if_congr hiff rfl rfl]

theorem mem_affected_valid {bb : BBox} {l : ℕ} {t : Tile} :
    t ∈ (get_affected_level_tiles bb l).filterMap (fun o => o) ↔
      t.level = l ∧ validTile t = true ∧
        bbox_intersects bb (meta_bbox t) = true := by
  rw [List.mem_filterMap]
  constructor
  · rintro ⟨a, ha, haeq⟩
    subst haeq
    exact mem_affected.mp ha
  · intro h
    exact ⟨some t, mem_affected.mpr h, rfl⟩

theorem affected_valid_nodup (bb : BBox) (l : ℕ) :
    ((get_affected_level_tiles bb l).filterMap (fun o => o)).Nodup := by
  rw [List.nodup_iff_count_le_one]
  intro a
  rw [count_some_affected]
  split_ifs <;> omega

/-! ## Geometry of meta-tile boxes -/

theorem meta_bbox_nondeg (t : Tile) :
    (meta_bbox t).minx < (meta_bbox t).maxx ∧
    (meta_bbox t).miny < (meta_bbox t).maxy := by
  have hp : (0 : ℚ) < 2 ^ t.level := by positivity
  constructor <;>
    · simp only [meta_bbox]
      rw [div_lt_div_iff hp hp]
      have : (0:ℚ) < 2 ^ t.level := hp
      nlinarith

theorem overlap_of_contains {B bb : BBox} (h : bbox_contains B bb = true)
    (hx : bb.minx < bb.maxx) (hy : bb.miny < bb.maxy) :
    bbox_intersects B bb = true := by
  simp only [bbox_contains, Bool.and_eq_true, decide_eq_true_eq, ge_iff_le] at h
  obtain ⟨⟨⟨h1, h2⟩, h3⟩, h4⟩ := h
  simp only [bbox_intersects, Bool.and_eq_true, decide_eq_true_eq, gt_iff_lt]
  exact ⟨⟨⟨by linarith, by linarith⟩, by linarith⟩, by linarith⟩

theorem contains_trans {a b c : BBox} (h1 : bbox_contains a b = true)
    (h2 : bbox_contains b c = true) : bbox_contains a c = true := by
  simp only [bbox_contains, Bool.and_eq_true, decide_eq_true_eq, ge_iff_le]
    at h1 h2 ⊢
  obtain ⟨⟨⟨a1, a2⟩, a3⟩, a4⟩ := h1
  obtain ⟨⟨⟨b1, b2⟩, b3⟩, b4⟩ := h2
  exact ⟨⟨⟨by linarith, by linarith⟩, by linarith⟩, by linarith⟩

theorem contains_refl (a : BBox) : bbox_contains a a = true := by
  simp [bbox_contains]

theorem overlap_mono {B bb big : BBox} (h : bbox_intersects B bb = true)
    (hc : bbox_contains big bb = true) : bbox_intersects B big = true := by
  simp only [bbox_intersects, Bool.and_eq_true, decide_eq_true_eq, gt_iff_lt]
    at h ⊢
  simp only [bbox_contains, Bool.and_eq_true, decide_eq_true_eq, ge_iff_le] at hc
  obtain ⟨⟨⟨h1, h2⟩, h3⟩, h4⟩ := h
  obtain ⟨⟨⟨c1, c2⟩, c3⟩, c4⟩ := hc
  exact ⟨⟨⟨by linarith, by linarith⟩, by linarith⟩, by linarith⟩

theorem parent_le_child_left {px x : ℤ} {m : ℕ} (h : 2 * px ≤ x) :
    (px : ℚ) / 2 ^ m ≤ (x : ℚ) / 2 ^ (m + 1) := by
  have hp : (0 : ℚ) < 2 ^ m := by positivity
  rw [div_le_div_iff hp (by positivity)]
  have hc : ((2 * px : ℤ) : ℚ) ≤ (x : ℚ) := by exact_mod_cast h
  push_cast at hc
  calc (px : ℚ) * 2 ^ (m + 1) = (2 * px) * 2 ^ m := by ring
  _ ≤ (x : ℚ) * 2 ^ m := mul_le_mul_of_nonneg_right hc (le_of_lt hp)

theorem child_le_parent_right {px x : ℤ} {m : ℕ} (h : x + 1 ≤ 2 * px + 2) :
    ((x : ℚ) + 1) / 2 ^ (m + 1) ≤ ((px : ℚ) + 1) / 2 ^ m := by
  have hp : (0 : ℚ) < 2 ^ m := by positivity
  rw [div_le_div_iff (by positivity) hp]
  have hc : ((x + 1 : ℤ) : ℚ) ≤ ((2 * px + 2 : ℤ) : ℚ) := by exact_mod_cast h
  push_cast at hc
  calc ((x : ℚ) + 1) * 2 ^ m ≤ (2 * px + 2) * 2 ^ m :=
      mul_le_mul_of_nonneg_right hc (le_of_lt hp)
  _ = ((px : ℚ) + 1) * 2 ^ (m + 1) := by ring

theorem parent_contains {t : Tile} (h : 0 < t.level) :
    bbox_contains (meta_bbox (parentTile t)) (meta_bbox t) = true := by
  obtain ⟨x, y, l⟩ := t
  simp only at h
  obtain ⟨m, rfl⟩ : ∃ m, l = m + 1 := ⟨l - 1, by omega⟩
  simp only [bbox_contains, meta_bbox, parentTile, Bool.and_eq_true,
    decide_eq_true_eq, ge_iff_le, Nat.add_sub_cancel]
  refine ⟨⟨⟨?_, ?_⟩, ?_⟩, ?_⟩
  · exact parent_le_child_left (by omega)
  · exact child_le_parent_right (by omega)
  · exact parent_le_child_left (by omega)
  · exact child_le_parent_right (by omega)

theorem validTile_parent {t : Tile} (h : validTile t = true) :
    validTile (parentTile t) = true := by
  obtain ⟨x, y, l⟩ := t
  simp only [validTile, valid_coord, parentTile, Bool.and_eq_true,
    decide_eq_true_eq] at h ⊢
  obtain ⟨⟨hx0, hx1⟩, ⟨hy0, hy1⟩⟩ := h
  cases l with
  | zero =>
    simp only [pow_zero] at hx1 hy1 ⊢
    omega
  | succ m =>
    have h2 : (2 : ℤ) ^ (m + 1) = 2 * 2 ^ m := by ring
    have hp : (0 : ℤ) < 2 ^ m := pow_pos (by norm_num) m
    simp only [Nat.add_sub_cancel]
    omega

theorem ancAt_level (k : ℕ) (t : Tile) : (ancAt k t).level = t.level - k := by
  induction k generalizing t with
  | zero => simp [ancAt]
  | succ n ih =>
    show (ancAt n (parentTile t)).level = t.level - (n + 1)
    rw [ih]
    simp only [parentTile]
    omega

theorem ancAt_succ_out (k : ℕ) (t : Tile) :
    ancAt (k + 1) t = parentTile (ancAt k t) := by
  induction k generalizing t with
  | zero => rfl
  | succ n ih =>
    calc ancAt (n + 2) t = ancAt (n + 1) (parentTile t) := rfl
    _ = parentTile (ancAt n (parentTile t)) := ih _
    _ = parentTile (ancAt (n + 1) t) := rfl

theorem ancAt_add (a b : ℕ) (t : Tile) : ancAt (a + b) t = ancAt a (ancAt b t) := by
  induction b generalizing t with
  | zero => rfl
  | succ n ih =>
    calc ancAt (a + (n + 1)) t = ancAt (a + n) (parentTile t) := rfl
    _ = ancAt a (ancAt n (parentTile t)) := ih _
    _ = ancAt a (ancAt (n + 1) t) := rfl

theorem validTile_ancAt (k : ℕ) {t : Tile} (h : validTile t = true) :
    validTile (ancAt k t) = true := by
  induction k generalizing t with
  | zero => exact h
  | succ n ih => exact ih (validTile_parent h)

theorem contains_ancAt (k : ℕ) {t : Tile} (h : k ≤ t.level) :
    bbox_contains (meta_bbox (ancAt k t)) (meta_bbox t) = true := by
  induction k with
  | zero => exact contains_refl _
  | succ n ih =>
    rw [ancAt_succ_out]
    have hlev : 0 < (ancAt n t).level := by
      rw [ancAt_level]
      omega
    exact contains_trans (parent_contains hlev) (ih (by omega))

theorem overlap_ancAt (k : ℕ) {B : BBox} {t : Tile} (h : k ≤ t.level)
    (hov : bbox_intersects B (meta_bbox t) = true) :
    bbox_intersects B (meta_bbox (ancAt k t)) = true :=
  overlap_mono hov (contains_ancAt k h)

theorem strict_cross_iff {p x : ℤ} {m : ℕ} :
    ((p : ℚ) / 2 ^ m < ((x : ℚ) + 1) / 2 ^ (m + 1) ∧
      (x : ℚ) / 2 ^ (m + 1) < ((p : ℚ) + 1) / 2 ^ m) ↔ x / 2 = p := by
  have hp : (0 : ℚ) < 2 ^ m := by positivity
  have hp1 : (0 : ℚ) < 2 ^ (m + 1) := by positivity
  rw [div_lt_div_iff hp hp1, div_lt_div_iff hp1 hp]
  have e1 : (p : ℚ) * 2 ^ (m + 1) = ((2 * p : ℤ) : ℚ) * 2 ^ m := by
    push_cast
    ring
  have e2 : ((p : ℚ) + 1) * 2 ^ (m + 1) = ((2 * p + 2 : ℤ) : ℚ) * 2 ^ m := by
    push_cast
    ring
  rw [e1, e2, mul_lt_mul_right hp, mul_lt_mul_right hp]
  constructor
  · rintro ⟨h1, h2⟩
    have g1 : (2 * p : ℤ) < x + 1 := by exact_mod_cast (by push_cast at h1 ⊢; linarith : ((2 * p : ℤ) : ℚ) < ((x + 1 : ℤ) : ℚ))
    have g2 : (x : ℤ) < 2 * p + 2 := by exact_mod_cast (by push_cast at h2 ⊢; linarith : ((x : ℤ) : ℚ) < ((2 * p + 2 : ℤ) : ℚ))
    omega
  · intro h
    have g1 : (2 * p : ℤ) < x + 1 := by omega
    have g2 : (x : ℤ) < 2 * p + 2 := by omega
    constructor
    · have hq : ((2 * p : ℤ) : ℚ) < ((x + 1 : ℤ) : ℚ) := by exact_mod_cast g1
      push_cast at hq ⊢
      linarith
    · have hq : ((x : ℤ) : ℚ) < ((2 * p + 2 : ℤ) : ℚ) := by exact_mod_cast g2
      push_cast at hq ⊢
      linarith

theorem overlap_child_iff_parent {c u : Tile} (hl : u.level = c.level + 1) :
    bbox_intersects (meta_bbox c) (meta_bbox u) = true ↔ parentTile u = c := by
  obtain ⟨cx, cy, cl⟩ := c
  obtain ⟨ux, uy, ul⟩ := u
  simp only at hl
  subst hl
  simp only [bbox_intersects, meta_bbox, parentTile, Bool.and_eq_true,
    decide_eq_true_eq, gt_iff_lt, Tile.mk.injEq, Nat.add_sub_cancel]
  constructor
  · rintro ⟨⟨⟨h1, h2⟩, h3⟩, h4⟩
    exact ⟨strict_cross_iff.mp ⟨h1, h2⟩, strict_cross_iff.mp ⟨h3, h4⟩, trivial⟩
  · rintro ⟨h1, h2, -⟩
    obtain ⟨g1, g2⟩ := strict_cross_iff.mpr h1
    obtain ⟨g3, g4⟩ := strict_cross_iff.mpr h2
    exact ⟨⟨⟨g1, g2⟩, g3⟩, g4⟩

theorem intersects_eq_neg_one {B bb : BBox} :
    intersects B bb = -1 ↔ bbox_contains B bb = true := by
  unfold intersects
  split_ifs with h1 h2 <;> simp_all

theorem intersects_ne_zero {B bb : BBox} (hx : bb.minx < bb.maxx)
    (hy : bb.miny < bb.maxy) :
    (¬ intersects B bb = 0) ↔ bbox_intersects B bb = true := by
  unfold intersects
  split_ifs with h1 h2
  · simp [overlap_of_contains h1 hx hy]
  · simp [h2]
  · simp [h2]

/-! ## Characterizing one `_seed` frame -/

theorem sub_seeds_eq (B : BBox) (full : Bool) (sts : List (Option Tile))
    (hf : full = true → ∀ u : Tile, some u ∈ sts →
      bbox_contains B (meta_bbox u) = true) :
    sub_seeds B full sts =
      ((sts.filterMap (fun o => o)).filter
        (fun u => bbox_intersects B (meta_bbox u))).map
        (fun u => (meta_bbox u,
          if full then (-1 : ℤ) else intersects B (meta_bbox u))) := by
  induction sts with
  | nil => rfl
  | cons o rest ih =>
    have ihr := ih (fun hfu v hv => hf hfu v (by simp [hv]))
    cases o with
    | none =>
      simp only [sub_seeds, List.filterMap_cons] at ihr ⊢
      exact ihr
    | some u =>
      obtain ⟨hnx, hny⟩ := meta_bbox_nondeg u
      simp only [sub_seeds, List.filterMap_cons] at ihr ⊢
      by_cases hful : full = true
      · subst hful
        have hcont : bbox_contains B (meta_bbox u) = true :=
          hf rfl u (by simp)
        have hov : bbox_intersects B (meta_bbox u) = true :=
          overlap_of_contains hcont hnx hny
        simp only [if_true, List.filter_cons, hov, if_true]
        rw [if_neg (by norm_num)]
        rw [List.map_cons]
        exact congrArg _ ihr
      · have hful' : full = false := by
          cases full
          · rfl
          · exact absurd rfl hful
        subst hful'
        simp only [Bool.false_eq_true, if_false, List.filter_cons]
        by_cases hz : intersects B (meta_bbox u) = 0
        · have hov : ¬ bbox_intersects B (meta_bbox u) = true := by
            intro hov
            exact ((intersects_ne_zero hnx hny).mpr hov) hz
          rw [if_pos hz]
          simp only [Bool.not_eq_true] at hov
          rw [hov]
          simp only [Bool.false_eq_true, if_false]
          exact ihr
        · have hov : bbox_intersects B (meta_bbox u) = true :=
            (intersects_ne_zero hnx hny).mp hz
          rw [if_neg hz, hov]
          simp only [if_true, List.map_cons]
          exact congrArg _ ihr

theorem filterMap_id_map_some {α : Type} (l : List α) :
    (l.map some).filterMap (fun o => o) = l := by
  induction l with
  | nil => rfl
  | cons x rest ih => simp [List.filterMap_cons, ih]

theorem enumFrom_map {α β : Type} (f : α → β) :
    ∀ (l : List α) (n : ℕ),
    (l.map f).enumFrom n = (l.enumFrom n).map (fun p => (p.1, f p.2)) := by
  intro l
  induction l with
  | nil => intro n; rfl
  | cons x rest ih =>
    intro n
    simp only [List.map_cons, List.enumFrom, ih]

theorem seedAux_zero (B : BBox) (rt : ℤ) : seedAux B rt 0 = seedLeaf rt := rfl

theorem seedAux_succ (B : BBox) (rt : ℤ) (f : ℕ) :
    seedAux B rt (f + 1) = seedNode B rt (seedAux B rt f) := rfl

theorem emittedTiles_leaf (rt : ℤ) (cur : BBox) (level : ℕ) (id : List Char)
    (full : Bool) :
    emittedTiles (seedLeaf rt cur level id full) =
      (get_affected_level_tiles cur level).filterMap (fun o => o) := by
  simp [emittedTiles, seedLeaf]

theorem emittedTiles_node (B : BBox) (rt : ℤ)
    (rec : BBox → ℕ → List Char → Bool → SeedRun) (cur : BBox) (level : ℕ)
    (id : List Char) (full : Bool) :
    emittedTiles (seedNode B rt rec cur level id full) =
      (((sub_seeds B full (get_affected_level_tiles cur level)).enum.map (fun p =>
        emittedTiles (rec p.2.1 (level + 1)
          (id ++ [statusSymbolChar (p.1 : ℤ)
            (((sub_seeds B full (get_affected_level_tiles cur level)).length : ℤ))])
          (decide (p.2.2 = -1))))).flatten)
      ++ (get_affected_level_tiles cur level).filterMap (fun o => o) := by
  simp only [seedNode, emittedTiles]
  rw [List.map_append, List.flatten_append]
  congr 1
  · rw [flatten_map_flatten, List.map_map, List.map_map]
    rfl
  · simp

theorem enum_map {α β : Type} (f : α → β) (l : List α) :
    (l.map f).enum = l.enum.map (fun p => (p.1, f p.2)) :=
  enumFrom_map f l 0

theorem sum_map_enum_eq {α : Type} (φ : ℕ × α → ℕ) (g : α → ℕ) (l : List α)
    (h : ∀ p : ℕ × α, p.2 ∈ l → φ p = g p.2) :
    (l.enum.map φ).sum = (l.map g).sum :=
  sum_map_enumFrom_eq φ g l 0 h

theorem sum_child_counts (B : BBox) (rt : ℤ) (f : ℕ) (L : ℕ) (t : Tile)
    (ih : ∀ (c : Tile) (id : List Char) (full : Bool),
      validTile c = true →
      (full = true → bbox_contains B (meta_bbox c) = true) →
      (emittedTiles (seedAux B rt f (meta_bbox c) (c.level + 1) id full)).count t
        = if emittedInSubtree B f c t then 1 else 0)
    (sts : List (Option Tile))
    (hnd : (sts.filterMap (fun o => o)).Nodup)
    (hlv : ∀ u ∈ sts.filterMap (fun o => o), u.level = L)
    (hvl : ∀ u ∈ sts.filterMap (fun o => o), validTile u = true)
    (full : Bool)
    (hfl : full = true → ∀ u ∈ sts.filterMap (fun o => o),
      bbox_contains B (meta_bbox u) = true)
    (id0 : List Char) :
    (((sub_seeds B full sts).enum.map (fun p =>
      emittedTiles (seedAux B rt f p.2.1 (L + 1)
        (id0 ++ [statusSymbolChar (p.1 : ℤ) ((sub_seeds B full sts).length : ℤ)])
        (decide (p.2.2 = -1))))).map (List.count t)).sum
    = if ∃ u ∈ sts.filterMap (fun o => o),
        bbox_intersects B (meta_bbox u) = true ∧ emittedInSubtree B f u t
      then 1 else 0 := by
  have hrw := sub_seeds_eq B full sts (fun hfu u hu =>
    hfl hfu u (List.mem_filterMap.mpr ⟨some u, hu, rfl⟩))
  rw [hrw, enum_map, List.map_map, List.map_map]
  rw [sum_map_enum_eq _ (fun u => if emittedInSubtree B f u t then 1 else 0) _ ?_]
  · exact sum_indicator_unique (fun u => emittedInSubtree B f u t)
      (fun u => bbox_intersects B (meta_bbox u)) (ancAt (t.level - L) t)
      (sts.filterMap (fun o => o)) hnd
      (fun u hu hP => by
        have h1 := hP.2.2.2.1
        rw [hlv u hu] at h1
        exact h1.symm)
  · intro p hp
    obtain ⟨i, u⟩ := p
    simp only at hp
    have huS : u ∈ sts.filterMap (fun o => o) := List.mem_of_mem_filter hp
    have hlvu : u.level = L := hlv u huS
    have hvlu : validTile u = true := hvl u huS
    simp only [Function.comp_apply]
    rw [← hlvu]
    exact ih u _ _ hvlu (by
      intro hdec
      rw [decide_eq_true_eq] at hdec
      cases hfu : full
      · rw [hfu] at hdec
        simp only [Bool.false_eq_true, if_false] at hdec
        exact intersects_eq_neg_one.mp hdec
      · exact hfl hfu u huS)

theorem seedAux_count (B : BBox) (rt : ℤ) :
    ∀ (f : ℕ) (c : Tile) (id : List Char) (full : Bool) (t : Tile),
      validTile c = true →
      (full = true → bbox_contains B (meta_bbox c) = true) →
      (emittedTiles (seedAux B rt f (meta_bbox c) (c.level + 1) id full)).count t
        = if emittedInSubtree B f c t then 1 else 0 := by
  intro f
  induction f with
  | zero =>
    intro c id full t hc hfull
    rw [seedAux_zero, emittedTiles_leaf, count_some_affected]
    refine if_congr ?_ rfl rfl
    constructor
    · rintro ⟨hl, hv, hov⟩
      have hpar : parentTile t = c := (overlap_child_iff_parent hl).mp hov
      refine ⟨hv, by omega, by omega, ?_, ?_⟩
      · have h1 : t.level - c.level = 1 := by omega
        rw [h1]
        exact hpar
      · intro j hj1 hj2
        exact absurd hj1 (by omega)
    · rintro ⟨hv, hl1, hl2, hanc, hchain⟩
      have hl : t.level = c.level + 1 := by omega
      have h1 : t.level - c.level = 1 := by omega
      rw [h1] at hanc
      exact ⟨hl, hv, (overlap_child_iff_parent hl).mpr hanc⟩
  | succ n ihn =>
    intro c id full t hc hfull
    rw [seedAux_succ, emittedTiles_node, List.count_append, count_flatten]
    have hchild := sum_child_counts B rt n (c.level + 1) t
      (fun c' id' full' hc' hf' => ihn c' id' full' t hc' hf')
      (get_affected_level_tiles (meta_bbox c) (c.level + 1))
      (affected_valid_nodup _ _)
      (fun u hu => (mem_affected_valid.mp hu).1)
      (fun u hu => (mem_affected_valid.mp hu).2.1)
      full
      (by
        intro hfu u hu
        obtain ⟨hul, huv, huov⟩ := mem_affected_valid.mp hu
        have hpar : parentTile u = c := (overlap_child_iff_parent hul).mp huov
        have hcontc : bbox_contains (meta_bbox c) (meta_bbox u) = true := by
          have hpc := parent_contains (t := u) (by omega)
          rwa [hpar] at hpc
        exact contains_trans (hfull hfu) hcontc)
      id
    rw [hchild, count_some_affected]
    have hexcl : ¬((∃ u ∈ (get_affected_level_tiles (meta_bbox c)
          (c.level + 1)).filterMap (fun o => o),
          bbox_intersects B (meta_bbox u) = true ∧ emittedInSubtree B n u t) ∧
        (t.level = c.level + 1 ∧ validTile t = true ∧
          bbox_intersects (meta_bbox c) (meta_bbox t) = true)) := by
      rintro ⟨⟨u, hu, -, hP⟩, ⟨hl, -, -⟩⟩
      have hul : u.level = c.level + 1 := (mem_affected_valid.mp hu).1
      have := hP.2.1
      omega
    have hor : ((∃ u ∈ (get_affected_level_tiles (meta_bbox c)
          (c.level + 1)).filterMap (fun o => o),
          bbox_intersects B (meta_bbox u) = true ∧ emittedInSubtree B n u t) ∨
        (t.level = c.level + 1 ∧ validTile t = true ∧
          bbox_intersects (meta_bbox c) (meta_bbox t) = true))
        ↔ emittedInSubtree B (n + 1) c t := by
      constructor
      · rintro (⟨u, hu, hovB, hP⟩ | ⟨hl, hv, hovc⟩)
        · obtain ⟨hul, huvalid, huovc⟩ := mem_affected_valid.mp hu
          obtain ⟨hv, hlt, hle, hanc, hchain⟩ := hP
          have hpar : parentTile u = c := (overlap_child_iff_parent hul).mp huovc
          refine ⟨hv, by omega, by omega, ?_, ?_⟩
          · have e1 : t.level - c.level = (t.level - u.level) + 1 := by omega
            rw [e1, ancAt_succ_out, hanc, hpar]
          · intro j hj1 hj2
            by_cases hje : j = t.level - u.level
            · rw [hje, hanc]
              exact hovB
            · exact hchain j (by omega) hj2
        · have hpar : parentTile t = c := (overlap_child_iff_parent hl).mp hovc
          refine ⟨hv, by omega, by omega, ?_, ?_⟩
          · have e1 : t.level - c.level = 1 := by omega
            rw [e1]
            exact hpar
          · intro j hj1 hj2
            exact absurd hj1 (by omega)
      · rintro ⟨hv, hlt, hle, hanc, hchain⟩
        by_cases hl : t.level = c.level + 1
        · refine Or.inr ⟨hl, hv, ?_⟩
          have e1 : t.level - c.level = 1 := by omega
          rw [e1] at hanc
          exact (overlap_child_iff_parent hl).mpr hanc
        · have hul : (ancAt (t.level - c.level - 1) t).level = c.level + 1 := by
            rw [ancAt_level]
            omega
          refine Or.inl ⟨ancAt (t.level - c.level - 1) t, ?_, ?_, ?_⟩
          · apply mem_affected_valid.mpr
            refine ⟨hul, validTile_ancAt _ hv, ?_⟩
            apply (overlap_child_iff_parent hul).mpr
            rw [← ancAt_succ_out]
            have e1 : (t.level - c.level - 1) + 1 = t.level - c.level := by omega
            rw [e1]
            exact hanc
          · exact hchain _ (by omega) (by omega)
          · refine ⟨hv, by rw [hul]; omega, by rw [hul]; omega, ?_, ?_⟩
            · have e2 : t.level - (ancAt (t.level - c.level - 1) t).level =
                  t.level - c.level - 1 := by
                rw [hul]
                omega
              rw [e2]
            · intro j hj1 hj2
              apply hchain j ?_ hj2
              rw [hul] at hj1
              omega
    by_cases hA : ∃ u ∈ (get_affected_level_tiles (meta_bbox c)
        (c.level + 1)).filterMap (fun o => o),
        bbox_intersects B (meta_bbox u) = true ∧ emittedInSubtree B n u t
    · have hB : ¬(t.level = c.level + 1 ∧ validTile t = true ∧
          bbox_intersects (meta_bbox c) (meta_bbox t) = true) :=
        fun hB => hexcl ⟨hA, hB⟩
      rw [if_pos hA, if_neg hB, if_pos (hor.mp (Or.inl hA))]
    · by_cases hB : t.level = c.level + 1 ∧ validTile t = true ∧
          bbox_intersects (meta_bbox c) (meta_bbox t) = true
      · rw [if_neg hA, if_pos hB, if_pos (hor.mp (Or.inr hB))]
      · rw [if_neg hA, if_neg hB, if_neg (fun hP => (hor.mpr hP).elim hA hB)]

/-- Exact multiplicity of any meta-tile in the work items of one
`_seed_location` traversal: a tile at the start level is emitted once iff
it overlaps the target; a deeper tile is emitted once iff its level-`lo`
ancestor is an affected tile overlapping the target and every strict
ancestor below it overlaps the target. -/
theorem count_seed_location (B : BBox) (lo hi : ℕ) (t : Tile) (h : lo ≤ hi) :
    (emittedTiles (seed_location_run B lo hi)).count t =
      if (t.level = lo ∧ validTile t = true ∧
            bbox_intersects B (meta_bbox t) = true)
          ∨ (lo < hi ∧
            ∃ u ∈ (get_affected_level_tiles B lo).filterMap (fun o => o),
              bbox_intersects B (meta_bbox u) = true ∧
              emittedInSubtree B (hi - lo - 1) u t)
      then 1 else 0 := by
  unfold seed_location_run
  rcases Nat.eq_or_lt_of_le h with heq | hlt
  · rw [show hi - lo = 0 from by omega]
    rw [seedAux_zero, emittedTiles_leaf, count_some_affected]
    refine if_congr ?_ rfl rfl
    constructor
    · intro hown
      exact Or.inl hown
    · rintro (hown | ⟨hlt', -⟩)
      · exact hown
      · exact absurd hlt' (by omega)
  · obtain ⟨m, hm⟩ : ∃ m, hi - lo = m + 1 := ⟨hi - lo - 1, by omega⟩
    rw [hm, seedAux_succ, emittedTiles_node, List.count_append, count_flatten]
    have hchild := sum_child_counts B (report_till_level lo hi) m lo t
      (fun c' id' full' hc' hf' =>
        seedAux_count B (report_till_level lo hi) m c' id' full' t hc' hf')
      (get_affected_level_tiles B lo)
      (affected_valid_nodup _ _)
      (fun u hu => (mem_affected_valid.mp hu).1)
      (fun u hu => (mem_affected_valid.mp hu).2.1)
      false
      (fun hfu => absurd hfu (by simp))
      []
    rw [hchild, count_some_affected]
    simp only [Nat.add_sub_cancel]
    have hexcl : ¬((∃ u ∈ (get_affected_level_tiles B lo).filterMap
          (fun o => o), bbox_intersects B (meta_bbox u) = true ∧
          emittedInSubtree B m u t) ∧
        (t.level = lo ∧ validTile t = true ∧
          bbox_intersects B (meta_bbox t) = true)) := by
      rintro ⟨⟨u, hu, -, hP⟩, ⟨hl, -, -⟩⟩
      have hul : u.level = lo := (mem_affected_valid.mp hu).1
      have := hP.2.1
      omega
    by_cases hA : ∃ u ∈ (get_affected_level_tiles B lo).filterMap
        (fun o => o), bbox_intersects B (meta_bbox u) = true ∧
        emittedInSubtree B m u t
    · have hB : ¬(t.level = lo ∧ validTile t = true ∧
          bbox_intersects B (meta_bbox t) = true) := fun hB => hexcl ⟨hA, hB⟩
      rw [if_pos hA, if_neg hB, if_pos (Or.inr ⟨hlt, hA⟩)]
    · by_cases hB : t.level = lo ∧ validTile t = true ∧
          bbox_intersects B (meta_bbox t) = true
      · rw [if_neg hA, if_pos hB, if_pos (Or.inl hB)]
      · rw [if_neg hA, if_neg hB, if_neg ?_]
        rintro (hown | ⟨-, hex⟩)
        · exact hB hown
        · exact hA hex

/-! ## Accessor lemmas for the traversal trace -/

theorem frames_leaf (rt : ℤ) (cur : BBox) (level : ℕ) (id : List Char)
    (full : Bool) :
    (seedLeaf rt cur level id full).frames = [(level, cur, full)] := rfl

theorem prints_leaf (rt : ℤ) (cur : BBox) (level : ℕ) (id : List Char)
    (full : Bool) :
    (seedLeaf rt cur level id full).prints =
      if (level : ℤ) ≤ rt then [(level, cur, full)] else [] := rfl

theorem relCalls_leaf (rt : ℤ) (cur : BBox) (level : ℕ) (id : List Char)
    (full : Bool) : (seedLeaf rt cur level id full).relCalls = 0 := rfl

theorem frames_node (B : BBox) (rt : ℤ)
    (rec : BBox → ℕ → List Char → Bool → SeedRun) (cur : BBox) (level : ℕ)
    (id : List Char) (full : Bool) :
    (seedNode B rt rec cur level id full).frames =
      (level, cur, full) ::
        (((sub_seeds B full (get_affected_level_tiles cur level)).enum.map
          (fun p => (rec p.2.1 (level + 1)
            (id ++ [statusSymbolChar (p.1 : ℤ)
              ((sub_seeds B full (get_affected_level_tiles cur level)).length : ℤ)])
            (decide (p.2.2 = -1))).frames)).flatten) := by
  simp only [seedNode]
  rw [List.map_map]
  rfl

theorem prints_node (B : BBox) (rt : ℤ)
    (rec : BBox → ℕ → List Char → Bool → SeedRun) (cur : BBox) (level : ℕ)
    (id : List Char) (full : Bool) :
    (seedNode B rt rec cur level id full).prints =
      (if (level : ℤ) ≤ rt then [(level, cur, full)] else []) ++
        (((sub_seeds B full (get_affected_level_tiles cur level)).enum.map
          (fun p => (rec p.2.1 (level + 1)
            (id ++ [statusSymbolChar (p.1 : ℤ)
              ((sub_seeds B full (get_affected_level_tiles cur level)).length : ℤ)])
            (decide (p.2.2 = -1))).prints)).flatten) := by
  simp only [seedNode]
  rw [List.map_map]
  rfl

theorem emits_node (B : BBox) (rt : ℤ)
    (rec : BBox → ℕ → List Char → Bool → SeedRun) (cur : BBox) (level : ℕ)
    (id : List Char) (full : Bool) :
    (seedNode B rt rec cur level id full).emits =
      (((sub_seeds B full (get_affected_level_tiles cur level)).enum.map
        (fun p => (rec p.2.1 (level + 1)
          (id ++ [statusSymbolChar (p.1 : ℤ)
            ((sub_seeds B full (get_affected_level_tiles cur level)).length : ℤ)])
          (decide (p.2.2 = -1))).emits)).flatten)
      ++ [(id, get_affected_level_tiles cur level)] := by
  simp only [seedNode]
  rw [List.map_map]
  rfl

theorem relCalls_node (B : BBox) (rt : ℤ)
    (rec : BBox → ℕ → List Char → Bool → SeedRun) (cur : BBox) (level : ℕ)
    (id : List Char) (full : Bool) :
    (seedNode B rt rec cur level id full).relCalls =
      (if full then 0
        else ((get_affected_level_tiles cur level).filterMap (fun o => o)).length)
      + (((sub_seeds B full (get_affected_level_tiles cur level)).enum.map
        (fun p => (rec p.2.1 (level + 1)
          (id ++ [statusSymbolChar (p.1 : ℤ)
            ((sub_seeds B full (get_affected_level_tiles cur level)).length : ℤ)])
          (decide (p.2.2 = -1))).relCalls)).sum) := by
  simp only [seedNode]
  rw [List.map_map]
  rfl

theorem mem_enumFrom_snd {α : Type} {p : ℕ × α} :
    ∀ {l : List α} {n : ℕ}, p ∈ l.enumFrom n → p.2 ∈ l := by
  intro l
  induction l with
  | nil => intro n h; simp [List.enumFrom] at h
  | cons x rest ih =>
    intro n h
    simp only [List.enumFrom, List.mem_cons] at h
    rcases h with rfl | h
    · simp
    · exact List.mem_cons_of_mem _ (ih h)

theorem mem_enum_snd {α : Type} {p : ℕ × α} {l : List α}
    (h : p ∈ l.enum) : p.2 ∈ l :=
  mem_enumFrom_snd (n := 0) h

theorem sub_seeds_true_snd {B : BBox} {sts : List (Option Tile)} :
    ∀ p ∈ sub_seeds B true sts, p.2 = (-1 : ℤ) := by
  intro p hp
  unfold sub_seeds at hp
  rcases List.mem_filterMap.mp hp with ⟨o, ho, heq⟩
  cases o with
  | none => exact absurd heq (by simp)
  | some u =>
    dsimp only at heq
    have heq2 : some ((meta_bbox u, (-1 : ℤ))) = some p := by
      simpa using heq
    injection heq2 with h2
    rw [← h2]

theorem sub_seeds_mem_src {B : BBox} {full : Bool} {sts : List (Option Tile)}
    {p : BBox × ℤ} (hp : p ∈ sub_seeds B full sts) :
    ∃ u : Tile, some u ∈ sts ∧ p.1 = meta_bbox u := by
  unfold sub_seeds at hp
  rcases List.mem_filterMap.mp hp with ⟨o, ho, heq⟩
  cases o with
  | none => exact absurd heq (by simp)
  | some u =>
    refine ⟨u, ho, ?_⟩
    dsimp only at heq
    by_cases hfu : full = true
    · rw [hfu] at heq
      have heq2 : some ((meta_bbox u, (-1 : ℤ))) = some p := by
        simpa using heq
      injection heq2 with h2
      rw [← h2]
    · have hfu' : full = false := by
        cases full
        · rfl
        · exact absurd rfl hfu
      rw [hfu'] at heq
      simp only [Bool.false_eq_true, if_false] at heq
      by_cases hz : intersects B (meta_bbox u) = 0
      · rw [if_pos hz] at heq
        exact absurd heq (by simp)
      · rw [if_neg hz] at heq
        injection heq with h2
        rw [← h2]

theorem relCalls_full_aux (B : BBox) (rt : ℤ) :
    ∀ (f : ℕ) (cur : BBox) (level : ℕ) (id : List Char),
      (seedAux B rt f cur level id true).relCalls = 0 ∧
      ∀ fr ∈ (seedAux B rt f cur level id true).frames, fr.2.2 = true := by
  intro f
  induction f with
  | zero =>
    intro cur level id
    refine ⟨rfl, ?_⟩
    intro fr hfr
    rw [seedAux_zero, frames_leaf] at hfr
    rw [List.mem_singleton.mp hfr]
  | succ n ih =>
    intro cur level id
    constructor
    · rw [seedAux_succ, relCalls_node, if_pos rfl]
      rw [List.sum_eq_zero, Nat.zero_add]
      intro x hx
      rcases List.mem_map.mp hx with ⟨p, hpe, rfl⟩
      have hsnd := sub_seeds_true_snd p.2 (mem_enum_snd hpe)
      rw [show decide (p.2.2 = -1) = true from by rw [hsnd]; decide]
      exact (ih _ _ _).1
    · intro fr hfr
      rw [seedAux_succ, frames_node] at hfr
      rcases List.mem_cons.mp hfr with rfl | hfr
      · rfl
      · rcases List.mem_flatten.mp hfr with ⟨fl, hfl, hmem⟩
        rcases List.mem_map.mp hfl with ⟨p, hpe, rfl⟩
        have hsnd := sub_seeds_true_snd p.2 (mem_enum_snd hpe)
        rw [show decide (p.2.2 = -1) = true from by rw [hsnd]; decide] at hmem
        exact (ih _ _ _).2 fr hmem

theorem prints_eq_filter (B : BBox) (rt : ℤ) :
    ∀ (f : ℕ) (cur : BBox) (level : ℕ) (id : List Char) (full : Bool),
      (seedAux B rt f cur level id full).prints =
        (seedAux B rt f cur level id full).frames.filter
          (fun fr => decide ((fr.1 : ℤ) ≤ rt)) := by
  intro f
  induction f with
  | zero =>
    intro cur level id full
    rw [seedAux_zero, prints_leaf, frames_leaf]
    by_cases h : (level : ℤ) ≤ rt
    · rw [if_pos h]
      simp [List.filter, h]
    · rw [if_neg h]
      simp [List.filter, h]
  | succ n ih =>
    intro cur level id full
    rw [seedAux_succ, prints_node, frames_node, List.filter_cons]
    rw [filter_flatten_map_congr (fun fr => decide ((fr.1 : ℤ) ≤ rt))
      (fun p => (seedAux B rt n p.2.1 (level + 1)
        (id ++ [statusSymbolChar (p.1 : ℤ)
          ((sub_seeds B full (get_affected_level_tiles cur level)).length : ℤ)])
        (decide (p.2.2 = -1))).frames)
      (fun p => (seedAux B rt n p.2.1 (level + 1)
        (id ++ [statusSymbolChar (p.1 : ℤ)
          ((sub_seeds B full (get_affected_level_tiles cur level)).length : ℤ)])
        (decide (p.2.2 = -1))).prints)
      ((sub_seeds B full (get_affected_level_tiles cur level)).enum)
      (fun q hq => (ih _ _ _ _).symm)]
    by_cases h : (level : ℤ) ≤ rt
    · rw [if_pos h, if_pos (decide_eq_true h)]
      rfl
    · rw [if_neg h, if_neg (by simpa using h)]
      rfl

theorem emits_getLast (B : BBox) (rt : ℤ) (f : ℕ) (cur : BBox) (level : ℕ)
    (id : List Char) (full : Bool) :
    (seedAux B rt f cur level id full).emits.getLast? =
      some (id, get_affected_level_tiles cur level) := by
  cases f with
  | zero => rfl
  | succ n =>
    rw [seedAux_succ, emits_node]
    exact List.getLast?_concat _

/-! ## exp_backoff lemmas -/

theorem go_ok {ε α : Type} {func : ℕ → Except ε α} {recov : ε → Bool}
    {s n fuel : ℕ} {a : α} (h : func n = Except.ok a) :
    exp_backoff_go func recov s n fuel = ⟨Except.ok a, 1, []⟩ := by
  unfold exp_backoff_go
  rw [h]

theorem go_fatal {ε α : Type} {func : ℕ → Except ε α} {recov : ε → Bool}
    {s n fuel : ℕ} {e : ε} (h : func n = Except.error e)
    (hr : recov e = false) :
    exp_backoff_go func recov s n fuel = ⟨Except.error e, 1, []⟩ := by
  unfold exp_backoff_go
  rw [h]
  simp [hr]

theorem go_retry_zero {ε α : Type} {func : ℕ → Except ε α} {recov : ε → Bool}
    {s n : ℕ} {e : ε} (h : func n = Except.error e) (hr : recov e = true) :
    exp_backoff_go func recov s n 0 = ⟨Except.error e, 1, []⟩ := by
  unfold exp_backoff_go
  rw [h]
  simp [hr]

theorem go_retry_succ {ε α : Type} {func : ℕ → Except ε α} {recov : ε → Bool}
    {s n f : ℕ} {e : ε} (h : func n = Except.error e) (hr : recov e = true) :
    exp_backoff_go func recov s n (f + 1) =
      ⟨(exp_backoff_go func recov s (n + 1) f).outcome,
       (exp_backoff_go func recov s (n + 1) f).calls + 1,
       (s * 2 ^ n) :: (exp_backoff_go func recov s (n + 1) f).sleeps⟩ := by
  conv_lhs => rw [exp_backoff_go]
  rw [h]
  simp [hr]

theorem go_calls_le {ε α : Type} (func : ℕ → Except ε α) (recov : ε → Bool)
    (s : ℕ) : ∀ (fuel n : ℕ),
    (exp_backoff_go func recov s n fuel).calls ≤ fuel + 1 := by
  intro fuel
  induction fuel with
  | zero =>
    intro n
    cases hf : func n with
    | ok a => rw [go_ok hf]
    | error e =>
      cases hr : recov e with
      | true => rw [go_retry_zero hf hr]
      | false => rw [go_fatal hf hr]
  | succ m ih =>
    intro n
    cases hf : func n with
    | ok a =>
      rw [go_ok hf]
      exact Nat.le_add_left 1 (m + 1)
    | error e =>
      cases hr : recov e with
      | true =>
        rw [go_retry_succ hf hr]
        have := ih (n + 1)
        dsimp only
        omega
      | false =>
        rw [go_fatal hf hr]
        exact Nat.le_add_left 1 (m + 1)

theorem range_pow_cons (s n m : ℕ) :
    s * 2 ^ n :: (List.range m).map (fun j => s * 2 ^ (n + 1 + j)) =
      (List.range (m + 1)).map (fun j => s * 2 ^ (n + j)) := by
  rw [List.range_succ_eq_map, List.map_cons, List.map_map]
  refine congrArg₂ List.cons (by rw [Nat.add_zero]) ?_
  apply List.map_congr_left
  intro j hj
  simp only [Function.comp_apply]
  rw [show n + (j + 1) = n + 1 + j from by omega]

theorem go_sleeps_shape {ε α : Type} (func : ℕ → Except ε α) (recov : ε → Bool)
    (s : ℕ) : ∀ (fuel n : ℕ), ∃ k : ℕ,
    (exp_backoff_go func recov s n fuel).sleeps =
      (List.range k).map (fun j => s * 2 ^ (n + j)) := by
  intro fuel
  induction fuel with
  | zero =>
    intro n
    refine ⟨0, ?_⟩
    cases hf : func n with
    | ok a => rw [go_ok hf]; rfl
    | error e =>
      cases hr : recov e with
      | true => rw [go_retry_zero hf hr]; rfl
      | false => rw [go_fatal hf hr]; rfl
  | succ m ih =>
    intro n
    cases hf : func n with
    | ok a => exact ⟨0, by rw [go_ok hf]; rfl⟩
    | error e =>
      cases hr : recov e with
      | true =>
        obtain ⟨k, hk⟩ := ih (n + 1)
        refine ⟨k + 1, ?_⟩
        rw [go_retry_succ hf hr]
        dsimp only
        rw [hk, range_pow_cons]
      | false => exact ⟨0, by rw [go_fatal hf hr]; rfl⟩

theorem go_sleep_sum {ε α : Type} (func : ℕ → Except ε α) (recov : ε → Bool)
    (s : ℕ) : ∀ (fuel n : ℕ),
    (exp_backoff_go func recov s n fuel).sleeps.sum + s * 2 ^ n ≤
      s * 2 ^ (n + fuel) := by
  intro fuel
  induction fuel with
  | zero =>
    intro n
    cases hf : func n with
    | ok a => rw [go_ok hf]; dsimp only; simp
    | error e =>
      cases hr : recov e with
      | true => rw [go_retry_zero hf hr]; dsimp only; simp
      | false => rw [go_fatal hf hr]; dsimp only; simp
  | succ m ih =>
    intro n
    have hmono : s * 2 ^ n ≤ s * 2 ^ (n + (m + 1)) :=
      Nat.mul_le_mul_left s (Nat.pow_le_pow_right (by norm_num) (by omega))
    cases hf : func n with
    | ok a =>
      rw [go_ok hf]
      dsimp only
      simp only [List.sum_nil, Nat.zero_add]
      omega
    | error e =>
      cases hr : recov e with
      | true =>
        rw [go_retry_succ hf hr]
        dsimp only
        simp only [List.sum_cons]
        have := ih (n + 1)
        have he1 : s * 2 ^ (n + 1) = s * 2 ^ n + s * 2 ^ n := by
          rw [pow_succ]
          ring
        have he2 : s * 2 ^ (n + 1 + m) = s * 2 ^ (n + (m + 1)) := by
          rw [show n + 1 + m = n + (m + 1) from by omega]
        omega
      | false =>
        rw [go_fatal hf hr]
        dsimp only
        simp only [List.sum_nil, Nat.zero_add]
        omega

theorem go_exhaust {ε α : Type} (func : ℕ → Except ε α) (recov : ε → Bool)
    (s : ℕ) : ∀ (fuel n : ℕ) (e' : ε),
    (∀ j, n ≤ j → j ≤ n + fuel → ∃ e, recov e = true ∧ func j = Except.error e) →
    func (n + fuel) = Except.error e' →
    (exp_backoff_go func recov s n fuel).outcome = Except.error e' := by
  intro fuel
  induction fuel with
  | zero =>
    intro n e' hall hlast
    rw [Nat.add_zero] at hlast
    obtain ⟨e, hre, hfe⟩ := hall n (le_refl n) (by omega)
    rw [hfe] at hlast
    injection hlast with he
    rw [go_retry_zero hfe hre, ← he]
  | succ m ih =>
    intro n e' hall hlast
    obtain ⟨e, hre, hfe⟩ := hall n (le_refl n) (by omega)
    rw [go_retry_succ hfe hre]
    simp only
    apply ih (n + 1) e' (fun j hj1 hj2 => hall j (by omega) (by omega))
    rw [show n + 1 + m = n + (m + 1) from by omega]
    exact hlast

theorem go_fatal_at {ε α : Type} (func : ℕ → Except ε α) (recov : ε → Bool)
    (s : ℕ) : ∀ (k fuel n : ℕ) (e : ε), k ≤ fuel →
    (∀ j, n ≤ j → j < n + k → ∃ e2, recov e2 = true ∧ func j = Except.error e2) →
    func (n + k) = Except.error e → recov e = false →
    exp_backoff_go func recov s n fuel =
      ⟨Except.error e, k + 1, (List.range k).map (fun j => s * 2 ^ (n + j))⟩ := by
  intro k
  induction k with
  | zero =>
    intro fuel n e hk hall hke hnr
    rw [Nat.add_zero] at hke
    rw [go_fatal hke hnr]
    simp
  | succ m ih =>
    intro fuel n e hk hall hke hnr
    obtain ⟨f', rfl⟩ : ∃ f', fuel = f' + 1 := ⟨fuel - 1, by omega⟩
    obtain ⟨e2, hre2, hfe2⟩ := hall n (le_refl n) (by omega)
    rw [go_retry_succ hfe2 hre2]
    rw [ih f' (n + 1) e (by omega) (fun j hj1 hj2 => hall j (by omega) (by omega))
      (by rw [show n + 1 + m = n + (m + 1) from by omega]; exact hke) hnr]
    simp only
    rw [range_pow_cons]

/-! ## status_symbol helpers -/

theorem status_symbol_last (total : ℤ) (h : 1 ≤ total) :
    status_symbol total total = some 'X' := by
  simp only [status_symbol]
  rw [if_pos ⟨by omega, by omega⟩]

theorem status_index_bounds (i total : ℤ) (h1 : 1 ≤ total) (h0 : 0 ≤ i)
    (hle : i + 1 ≤ total) :
    1 ≤ ⌈((i + 1 : ℤ) : ℚ) / ((total : ℚ) / 4)⌉ ∧
    ⌈((i + 1 : ℤ) : ℚ) / ((total : ℚ) / 4)⌉ ≤ 4 := by
  have htq : (0 : ℚ) < (total : ℚ) / 4 := by
    apply div_pos ?_ (by norm_num)
    exact_mod_cast (by omega : (0 : ℤ) < total)
  constructor
  · have hq : ((0 : ℤ) : ℚ) < ((i + 1 : ℤ) : ℚ) / ((total : ℚ) / 4) := by
      apply div_pos ?_ htq
      exact_mod_cast (by omega : (0 : ℤ) < i + 1)
    have := Int.lt_ceil.mpr hq
    omega
  · rw [Int.ceil_le]
    rw [div_le_iff htq]
    have hcast : ((i + 1 : ℤ) : ℚ) ≤ ((total : ℤ) : ℚ) :=
      (Int.cast_le).mpr hle
    calc ((i + 1 : ℤ) : ℚ) ≤ ((total : ℤ) : ℚ) := hcast
    _ = ((4 : ℤ) : ℚ) * ((total : ℚ) / 4) := by
        push_cast
        ring

theorem corner_child_mem (level : ℕ) :
    some ⟨0, 0, level + 1⟩ ∈
      get_affected_level_tiles (meta_bbox ⟨0, 0, level⟩) (level + 1) := by
  apply mem_affected.mpr
  refine ⟨rfl, ?_, ?_⟩
  · simp only [validTile, valid_coord, Bool.and_eq_true, decide_eq_true_eq]
    refine ⟨⟨le_refl 0, ?_⟩, ⟨le_refl 0, ?_⟩⟩ <;> positivity
  · simp only [bbox_intersects, meta_bbox, Bool.and_eq_true,
      decide_eq_true_eq, gt_iff_lt]
    refine ⟨⟨⟨?_, ?_⟩, ?_⟩, ?_⟩ <;>
      simp only [Int.cast_zero, zero_div, zero_add] <;> positivity

/-- Along the corner of a target box anchored at the origin, the traversal
enters one frame at every level: frames at levels `level, …, level + f`
all occur.  Used to exhibit a deep frame without evaluating the whole
traversal. -/
theorem corner_frames (B : BBox) (h1 : B.minx = 0) (h2 : B.miny = 0)
    (h3 : 0 < B.maxx) (h4 : 0 < B.maxy) (rt : ℤ) :
    ∀ (f : ℕ) (cur : BBox) (level : ℕ) (id : List Char) (full : Bool) (g : ℕ),
      g ≤ f →
      some ⟨0, 0, level⟩ ∈ get_affected_level_tiles cur level →
      ∃ bb fl, (level + g, bb, fl) ∈ (seedAux B rt f cur level id full).frames := by
  intro f
  induction f with
  | zero =>
    intro cur level id full g hg hmem
    obtain rfl : g = 0 := by omega
    exact ⟨cur, full, by rw [seedAux_zero, frames_leaf]; simp⟩
  | succ n ih =>
    intro cur level id full g hg hmem
    cases g with
    | zero =>
      exact ⟨cur, full, by rw [seedAux_succ, frames_node]; simp⟩
    | succ g' =>
      have hov : bbox_intersects B (meta_bbox ⟨0, 0, level⟩) = true := by
        simp only [bbox_intersects, meta_bbox, Bool.and_eq_true,
          decide_eq_true_eq, gt_iff_lt]
        refine ⟨⟨⟨?_, ?_⟩, ?_⟩, ?_⟩
        · rw [h1]
          simp only [Int.cast_zero, zero_add]
          positivity
        · simp only [Int.cast_zero, zero_div]
          exact h3
        · rw [h2]
          simp only [Int.cast_zero, zero_add]
          positivity
        · simp only [Int.cast_zero, zero_div]
          exact h4
      have hnd := meta_bbox_nondeg ⟨0, 0, level⟩
      have hit : (if full then (-1 : ℤ)
          else intersects B (meta_bbox ⟨0, 0, level⟩)) ≠ 0 := by
        cases full
        · simp only [Bool.false_eq_true, if_false]
          exact (intersects_ne_zero hnd.1 hnd.2).mpr hov
        · norm_num
      have hpair : (meta_bbox ⟨0, 0, level⟩,
          if full then (-1 : ℤ) else intersects B (meta_bbox ⟨0, 0, level⟩))
          ∈ sub_seeds B full (get_affected_level_tiles cur level) := by
        unfold sub_seeds
        apply List.mem_filterMap.mpr
        refine ⟨some ⟨0, 0, level⟩, hmem, ?_⟩
        dsimp only
        rw [if_neg hit]
      obtain ⟨p, hpenum, hpeq⟩ := exists_enumFrom_pair 0 hpair
      have hmem' : some ⟨0, 0, level + 1⟩ ∈
          get_affected_level_tiles p.2.1 (level + 1) := by
        rw [show p.2.1 = meta_bbox ⟨0, 0, level⟩ from by rw [hpeq]]
        exact corner_child_mem level
      obtain ⟨bb, fl, hfr⟩ := ih p.2.1 (level + 1)
        (id ++ [statusSymbolChar (p.1 : ℤ)
          ((sub_seeds B full (get_affected_level_tiles cur level)).length : ℤ)])
        (decide (p.2.2 = -1)) g' (by omega) hmem'
      refine ⟨bb, fl, ?_⟩
      rw [seedAux_succ, frames_node]
      apply List.mem_cons_of_mem
      apply List.mem_flatten.mpr
      refine ⟨_, List.mem_map.mpr ⟨p, hpenum, rfl⟩, ?_⟩
      rw [show level + (g' + 1) = level + 1 + g' from by omega]
      exact hfr

/-! ## SeedPool model lemmas -/

theorem count_none_map_some (E : List (List Char × List (Option Tile))) :
    (E.map (some : List Char × List (Option Tile) → QItem)).count none = 0 := by
  apply List.count_eq_zero.mpr
  intro h
  rcases List.mem_map.mp h with ⟨x, _, hx⟩
  exact Option.noConfusion hx

theorem count_none_trace (E : List (List Char × List (Option Tile))) (n : ℕ) :
    (seed_pool_trace E n).count none = n := by
  unfold seed_pool_trace
  rw [List.count_append, count_none_map_some, List.count_replicate_self]
  omega

theorem pool_step_inv (s : List WorkerSt × List QItem) (w : ℕ)
    (hinv : ∀ x ∈ s.1, x.sentinels ≤ 1 ∧ (x.alive = false ↔ x.sentinels = 1)) :
    ∀ x ∈ (pool_step s w).1,
      x.sentinels ≤ 1 ∧ (x.alive = false ↔ x.sentinels = 1) := by
  unfold pool_step
  cases hg : s.1.get? w with
  | none => exact hinv
  | some st =>
    dsimp only
    by_cases ha : st.alive = true
    · rw [if_pos ha]
      have hstinv := hinv st (List.get?_mem hg)
      cases hq : s.2 with
      | nil => exact hinv
      | cons q rest =>
        cases q with
        | none =>
          dsimp only
          intro x hx
          rcases List.mem_or_eq_of_mem_set hx with hx' | rfl
          · exact hinv x hx'
          · have hs0 : st.sentinels = 0 := by
              rcases Nat.lt_or_ge st.sentinels 1 with h1 | h1
              · omega
              · exfalso
                have h2 : st.sentinels = 1 := by omega
                have h3 := hstinv.2.mpr h2
                rw [ha] at h3
                exact Bool.noConfusion h3
            exact ⟨by simp [hs0], by simp [hs0]⟩
        | some it =>
          dsimp only
          intro x hx
          rcases List.mem_or_eq_of_mem_set hx with hx' | rfl
          · exact hinv x hx'
          · exact hstinv
    · rw [if_neg ha]
      exact hinv

theorem pool_run_inv (sched : List ℕ) :
    ∀ (ws : List WorkerSt) (q : List QItem),
    (∀ x ∈ ws, x.sentinels ≤ 1 ∧ (x.alive = false ↔ x.sentinels = 1)) →
    ∀ x ∈ (pool_run ws q sched).1,
      x.sentinels ≤ 1 ∧ (x.alive = false ↔ x.sentinels = 1) := by
  induction sched with
  | nil => intro ws q h; exact h
  | cons w rest ih =>
    intro ws q h
    have hred : pool_run ws q (w :: rest) =
        pool_run (pool_step (ws, q) w).1 (pool_step (ws, q) w).2 rest := rfl
    rw [hred]
    exact ih _ _ (pool_step_inv (ws, q) w h)

theorem sum_map_set (f : WorkerSt → ℕ) :
    ∀ (l : List WorkerSt) (w : ℕ) (st st' : WorkerSt), l.get? w = some st →
    ((l.set w st').map f).sum + f st = (l.map f).sum + f st' := by
  intro l
  induction l with
  | nil => intro w st st' h; exact absurd h (by simp)
  | cons x t ih =>
    intro w st st' h
    cases w with
    | zero =>
      rw [List.get?_cons_zero] at h
      injection h with h
      subst h
      simp only [List.set_cons_zero, List.map_cons, List.sum_cons]
      omega
    | succ w' =>
      rw [List.get?_cons_succ] at h
      simp only [List.set_cons_succ, List.map_cons, List.sum_cons]
      have := ih w' st st' h
      omega

theorem pool_step_conserve (s : List WorkerSt × List QItem) (w : ℕ) :
    ((pool_step s w).1.map (fun x => x.sentinels)).sum +
        (pool_step s w).2.count none =
      (s.1.map (fun x => x.sentinels)).sum + s.2.count none ∧
    (pool_step s w).1.length = s.1.length := by
  unfold pool_step
  cases hg : s.1.get? w with
  | none => exact ⟨rfl, rfl⟩
  | some st =>
    dsimp only
    by_cases ha : st.alive = true
    · rw [if_pos ha]
      cases hq : s.2 with
      | nil =>
        refine ⟨?_, rfl⟩
        dsimp only
        rw [hq]
      | cons q rest =>
        cases q with
        | none =>
          dsimp only
          constructor
          · have hsum := sum_map_set (fun x => x.sentinels) s.1 w st
              { st with alive := false, sentinels := st.sentinels + 1 } hg
            have hcnt : (none :: rest : List QItem).count none =
                rest.count none + 1 := by
              simp [List.count_cons]
            dsimp only at hsum
            omega
          · simp [List.length_set]
        | some it =>
          dsimp only
          constructor
          · have hsum := sum_map_set (fun x => x.sentinels) s.1 w st
              { st with processed := st.processed ++ [it] } hg
            have hcnt : (some it :: rest : List QItem).count none =
                rest.count none := by
              simp [List.count_cons]
            dsimp only at hsum
            omega
          · simp [List.length_set]
    · rw [if_neg ha]
      exact ⟨rfl, rfl⟩

theorem pool_run_conserve (sched : List ℕ) :
    ∀ (ws : List WorkerSt) (q : List QItem),
    ((pool_run ws q sched).1.map (fun x => x.sentinels)).sum +
        (pool_run ws q sched).2.count none =
      (ws.map (fun x => x.sentinels)).sum + q.count none ∧
    (pool_run ws q sched).1.length = ws.length := by
  induction sched with
  | nil => intro ws q; exact ⟨rfl, rfl⟩
  | cons w rest ih =>
    intro ws q
    have hstep := pool_step_conserve (ws, q) w
    have hred : pool_run ws q (w :: rest) =
        pool_run (pool_step (ws, q) w).1 (pool_step (ws, q) w).2 rest := rfl
    have hrest := ih (pool_step (ws, q) w).1 (pool_step (ws, q) w).2
    rw [hred]
    refine ⟨?_, ?_⟩
    · rw [hrest.1]
      exact hstep.1
    · rw [hrest.2]
      exact hstep.2

theorem init_workers_sum (n : ℕ) :
    ((init_workers n).map (fun x => x.sentinels)).sum = 0 := by
  unfold init_workers
  rw [List.map_replicate]
  simp

theorem init_workers_length (n : ℕ) : (init_workers n).length = n := by
  simp [init_workers]

theorem init_workers_inv (n : ℕ) :
    ∀ x ∈ init_workers n,
      x.sentinels ≤ 1 ∧ (x.alive = false ↔ x.sentinels = 1) := by
  intro x hx
  have := List.eq_of_mem_replicate hx
  subst this
  exact ⟨by norm_num, by simp⟩

theorem drained_all_exited (E : List (List Char × List (Option Tile))) (n : ℕ)
    (sched : List ℕ)
    (hdr : (pool_run (init_workers n) (seed_pool_trace E n) sched).2 = []) :
    ∀ w ∈ (pool_run (init_workers n) (seed_pool_trace E n) sched).1,
      w.alive = false ∧ w.sentinels = 1 := by
  have hinv := pool_run_inv sched (init_workers n) (seed_pool_trace E n)
    (init_workers_inv n)
  have hcons := pool_run_conserve sched (init_workers n) (seed_pool_trace E n)
  have hsum : (((pool_run (init_workers n) (seed_pool_trace E n) sched).1.map
      (fun x => x.sentinels)).sum) = n := by
    have h1 := hcons.1
    rw [hdr, init_workers_sum, count_none_trace] at h1
    simpa using h1
  have hlen : (pool_run (init_workers n) (seed_pool_trace E n) sched).1.length
      = n := by
    rw [hcons.2, init_workers_length]
  have hall := all_eq_one_of_sum_eq_length
    ((pool_run (init_workers n) (seed_pool_trace E n) sched).1.map
      (fun x => x.sentinels))
    (fun x hx => by
      rcases List.mem_map.mp hx with ⟨y, hy, rfl⟩
      exact (hinv y hy).1)
    (by rw [hsum, List.length_map, hlen])
  intro w hw
  have hs1 : w.sentinels = 1 :=
    hall w.sentinels (List.mem_map.mpr ⟨w, hw, rfl⟩)
  exact ⟨(hinv w hw).2.mpr hs1, hs1⟩

section ClaimProofs

attribute [local semireducible] Rat.add Rat.mul Rat.inv Rat.sub

set_option maxRecDepth 8000

/-- C1 (amended): for every target bbox `B` and level range `[lo, hi]`
with `lo ≤ hi`, the traversal `_seed(bbox, lo, hi)` emits every meta-tile
at each level `l ∈ [lo, hi]` whose `meta_bbox` (interior-)intersects `B`
exactly once; and every emitted meta-tile either sits at level `lo` and
intersects `B`, or sits at a deeper level inside a parent meta-tile that
intersects `B` (the claim's stronger assertion, that no emitted meta-tile
is disjoint from `B`, is refuted by `c1_counterexample`: a partially
covered parent contributes all of its children to the emitted batch). -/
theorem c1_theorem (B : BBox) (lo hi : ℕ) (hlh : lo ≤ hi) :
    (∀ t : Tile, validTile t = true → lo ≤ t.level → t.level ≤ hi →
      bbox_intersects B (meta_bbox t) = true →
      (emittedTiles (seed_location_run B lo hi)).count t = 1)
    ∧ (∀ t : Tile, t ∈ emittedTiles (seed_location_run B lo hi) →
        (t.level = lo → bbox_intersects B (meta_bbox t) = true)
        ∧ (lo < t.level →
            bbox_intersects B (meta_bbox (parentTile t)) = true)) := by
  constructor
  · intro t hv hlo hhi hov
    rw [count_seed_location B lo hi t hlh]
    rcases Nat.eq_or_lt_of_le hlo with heq | hlt
    · rw [if_pos (Or.inl ⟨heq.symm, hv, hov⟩)]
    · have hul : (ancAt (t.level - lo) t).level = lo := by
        rw [ancAt_level]
        omega
      refine if_pos (Or.inr ⟨by omega, ancAt (t.level - lo) t,
        mem_affected_valid.mpr ⟨hul, validTile_ancAt _ hv,
          overlap_ancAt _ (by omega) hov⟩,
        overlap_ancAt _ (by omega) hov,
        hv, by rw [hul]; omega, by rw [hul]; omega, ?_, ?_⟩)
      · rw [show t.level - (ancAt (t.level - lo) t).level = t.level - lo from
          by rw [hul]]
      · intro j hj1 hj2
        apply overlap_ancAt j ?_ hov
        rw [hul] at hj1
        omega
  · intro t hmem
    have hpos : (emittedTiles (seed_location_run B lo hi)).count t ≠ 0 := by
      intro h0
      rw [List.count_eq_zero] at h0
      exact h0 hmem
    rw [count_seed_location B lo hi t hlh] at hpos
    split_ifs at hpos with hRP
    · rcases hRP with ⟨hl, -, hov⟩ | ⟨hlohi, u, hu, hovu, hP⟩
      · exact ⟨fun _ => hov, fun hlt => absurd hl (by omega)⟩
      · have hul : u.level = lo := (mem_affected_valid.mp hu).1
        obtain ⟨hv, hltP, hle, hanc, hchain⟩ := hP
        constructor
        · intro hl
          exact absurd hl (by omega)
        · intro hlt
          by_cases h1 : t.level = lo + 1
          · have he : t.level - u.level = 1 := by omega
            rw [he] at hanc
            rw [show parentTile t = ancAt 1 t from rfl, hanc]
            exact hovu
          · have hj := hchain 1 (by omega) (by omega)
            rw [show parentTile t = ancAt 1 t from rfl]
            exact hj
    · exact absurd rfl hpos

/-- Witness for C1 at a concrete input: seeding the unit square over
levels `[0, 1]` emits the level-0 meta-tile exactly once. -/
theorem c1_witness :
    (emittedTiles (seed_location_run ⟨0, 0, 1, 1⟩ 0 1)).count ⟨0, 0, 0⟩ = 1 :=
  (c1_theorem ⟨0, 0, 1, 1⟩ 0 1 (by decide)).1 ⟨0, 0, 0⟩ (by decide) (by decide)
    (by decide) (by decide)

/-- Counterexample to C1 as stated: seeding `B = (0, 0, 1/2, 1)` over
levels `[0, 1]` emits the level-1 meta-tile `(1, 0)` even though its
`meta_bbox` `(1/2, 0, 1, 1/2)` is disjoint from `B` — the level-0 parent
only partially intersects `B`, yet its whole child batch is emitted. -/
theorem c1_counterexample :
    bbox_intersects ⟨0, 0, 1/2, 1⟩ (meta_bbox ⟨1, 0, 1⟩) = false ∧
    (emittedTiles (seed_location_run ⟨0, 0, 1/2, 1⟩ 0 1)).count ⟨1, 0, 1⟩ = 1 := by
  constructor
  · decide
  · decide

/-- C2: for every traversal frame entered with `full_intersect = true`
(the parent classified its bbox as CONTAINED), no call to the coverage
predicate `intersects` is made anywhere in that frame's subtree, and every
frame in the subtree carries `full_intersect = true` — all descendants are
treated as CONTAINED. -/
theorem c2_theorem (B : BBox) (rt : ℤ) (f : ℕ) (cur : BBox) (level : ℕ)
    (id : List Char) :
    (seedAux B rt f cur level id true).relCalls = 0 ∧
    ∀ fr ∈ (seedAux B rt f cur level id true).frames, fr.2.2 = true :=
  relCalls_full_aux B rt f cur level id

/-- Witness for C2 at a concrete input: a full-intersect frame over the
unit square with one descent level makes zero predicate calls, and its
root frame record carries the flag. -/
theorem c2_witness :
    (seedAux ⟨0, 0, 1, 1⟩ 5 1 ⟨0, 0, 1, 1⟩ 0 [] true).relCalls = 0 ∧
    ((0 : ℕ), (⟨0, 0, 1, 1⟩ : BBox), true).2.2 = true :=
  ⟨(c2_theorem ⟨0, 0, 1, 1⟩ 5 1 ⟨0, 0, 1, 1⟩ 0 []).1,
   (c2_theorem ⟨0, 0, 1, 1⟩ 5 1 ⟨0, 0, 1, 1⟩ 0 []).2
     (0, ⟨0, 0, 1, 1⟩, true) (by decide)⟩

/-- C3: work items are submitted in post-order.  Within every frame's
emission stream the frame's own `(id, subtiles)` batch comes last —
i.e. after every item of every descendant frame, since the stream is
exactly the concatenation of the children's streams (in child order)
followed by the frame's own item; the run always emits at least one
batch, and the whole run's last submission is the root frame's batch at
level `lo` (so the root always submits, even when `lo = hi` or no child
intersects the target). -/
theorem c3_theorem (B : BBox) (lo hi : ℕ) :
    1 ≤ (seed_location_run B lo hi).emits.length ∧
    (seed_location_run B lo hi).emits.getLast? =
      some ([], get_affected_level_tiles B lo) ∧
    (∀ (rt : ℤ) (f : ℕ) (cur : BBox) (level : ℕ) (id : List Char) (full : Bool),
      (seedAux B rt f cur level id full).emits.getLast? =
        some (id, get_affected_level_tiles cur level)) ∧
    (∀ (rt : ℤ) (f : ℕ) (cur : BBox) (level : ℕ) (id : List Char) (full : Bool),
      (seedAux B rt (f + 1) cur level id full).emits =
        (((sub_seeds B full (get_affected_level_tiles cur level)).enum.map
          (fun p => (seedAux B rt f p.2.1 (level + 1)
            (id ++ [statusSymbolChar (p.1 : ℤ)
              ((sub_seeds B full (get_affected_level_tiles cur level)).length : ℤ)])
            (decide (p.2.2 = -1))).emits)).flatten)
          ++ [(id, get_affected_level_tiles cur level)]) := by
  refine ⟨?_, ?_, ?_, ?_⟩
  · have h := emits_getLast B (report_till_level lo hi) (hi - lo) B lo [] false
    rcases hl : (seed_location_run B lo hi).emits with - | ⟨e, es⟩
    · rw [show (seed_location_run B lo hi).emits =
        (seedAux B (report_till_level lo hi) (hi - lo) B lo [] false).emits
        from rfl] at hl
      rw [hl] at h
      exact absurd h (by simp)
    · simp
  · exact emits_getLast B (report_till_level lo hi) (hi - lo) B lo [] false
  · intro rt f cur level id full
    exact emits_getLast B rt f cur level id full
  · intro rt f cur level id full
    rw [seedAux_succ, emits_node]

/-- Witness for C3 at a concrete run (unit bbox, `lo = hi = 0`): the
run's last (and only possible last) emission is the root batch. -/
theorem c3_witness :
    (seed_location_run ⟨0, 0, 1, 1⟩ 0 0).emits.getLast? =
      some ([], get_affected_level_tiles ⟨0, 0, 1, 1⟩ 0) :=
  (c3_theorem ⟨0, 0, 1, 1⟩ 0 0).2.1

/-- C7 (amended): a traversal frame at level `l` prints a progress line
iff `l ≤ level[0] + int(num_seed_levels * 0.7)`, where the multiplication
is IEEE-754 double arithmetic.  The double product can fall strictly below
the exact `⌊0.7·(hi-lo+1)⌋` (first at `hi-lo+1 = 90`, where
`int(90 * 0.7) = 62` but `⌊0.7·90⌋ = 63`), so the claim's exact-arithmetic
cutoff is wrong; the printed lines are exactly the frames whose level is
at most the float-computed cutoff. -/
theorem c7_theorem (B : BBox) (lo hi : ℕ) :
    (seed_location_run B lo hi).prints =
      (seed_location_run B lo hi).frames.filter
        (fun fr => decide ((fr.1 : ℤ) ≤ (lo : ℤ) + pyInt07 (hi - lo + 1))) :=
  prints_eq_filter B (report_till_level lo hi) (hi - lo) B lo [] false

/-- Counterexample to C7 as stated: seeding a tiny corner box over levels
`[0, 89]` (90 seed levels) enters a frame at level 63, and
`63 ≤ 0 + ⌊0.7·90⌋`, so the claim says that frame prints a progress line —
but the code computes `report_till_level = 0 + int(90 * 0.7) = 62` in
doubles, and no level-63 progress line is printed. -/
theorem c7_counterexample :
    (∃ fr ∈ (seed_location_run ⟨0, 0, 1 / 2 ^ 100, 1 / 2 ^ 100⟩ 0 89).frames,
      fr.1 = 63) ∧
    (∀ fr ∈ (seed_location_run ⟨0, 0, 1 / 2 ^ 100, 1 / 2 ^ 100⟩ 0 89).prints,
      fr.1 ≠ 63) ∧
    ((63 : ℤ) ≤ 0 + ⌊(7 : ℚ) / 10 * 90⌋) := by
  refine ⟨?_, ?_, ?_⟩
  · obtain ⟨bb, fl, hf⟩ := corner_frames ⟨0, 0, 1 / 2 ^ 100, 1 / 2 ^ 100⟩
      rfl rfl (by norm_num) (by norm_num) (report_till_level 0 89)
      89 ⟨0, 0, 1 / 2 ^ 100, 1 / 2 ^ 100⟩ 0 [] false 63 (by omega) (by decide)
    exact ⟨(0 + 63, bb, fl), hf, rfl⟩
  · intro fr hfr
    have hp := prints_eq_filter ⟨0, 0, 1 / 2 ^ 100, 1 / 2 ^ 100⟩
      (report_till_level 0 89) 89 ⟨0, 0, 1 / 2 ^ 100, 1 / 2 ^ 100⟩ 0 [] false
    rw [show (seed_location_run ⟨0, 0, 1 / 2 ^ 100, 1 / 2 ^ 100⟩ 0 89).prints =
      (seedAux ⟨0, 0, 1 / 2 ^ 100, 1 / 2 ^ 100⟩ (report_till_level 0 89) 89
        ⟨0, 0, 1 / 2 ^ 100, 1 / 2 ^ 100⟩ 0 [] false).prints from rfl, hp] at hfr
    have hle := List.of_mem_filter hfr
    rw [decide_eq_true_eq] at hle
    have hrt : report_till_level 0 89 = 62 := by decide
    rw [hrt] at hle
    omega
  · decide

/-- C4: `exp_backoff(f, max_repeat=10, start_backoff_sec=2)` invokes `f`
at most 10 times; the sleeps performed are, in order, `2·2^0, 2·2^1, …`
(so the sleep after the `n`-th recoverable failure is `start·2^(n-1)`);
the total sleep is at most `2·(2^10 − 1)` seconds; and if every attempt
fails recoverably, the outcome is the error of the last (10th) attempt,
re-raised. -/
theorem c4_theorem {ε α : Type} (func : ℕ → Except ε α) (recov : ε → Bool) :
    (exp_backoff func 10 2 recov).calls ≤ 10 ∧
    (exp_backoff func 10 2 recov).sleeps =
      (List.range (exp_backoff func 10 2 recov).sleeps.length).map
        (fun j => 2 * 2 ^ j) ∧
    (exp_backoff func 10 2 recov).sleeps.sum ≤ 2 * (2 ^ 10 - 1) ∧
    (∀ e' : ε,
      (∀ j, j < 10 → ∃ e, recov e = true ∧ func j = Except.error e) →
      func 9 = Except.error e' →
      (exp_backoff func 10 2 recov).outcome = Except.error e') := by
  have hdef : exp_backoff func 10 2 recov = exp_backoff_go func recov 2 0 9 :=
    rfl
  refine ⟨?_, ?_, ?_, ?_⟩
  · rw [hdef]
    exact go_calls_le func recov 2 9 0
  · rw [hdef]
    obtain ⟨k, hk⟩ := go_sleeps_shape func recov 2 9 0
    have hlen : (exp_backoff_go func recov 2 0 9).sleeps.length = k := by
      rw [hk, List.length_map, List.length_range]
    rw [hlen, hk]
    apply List.map_congr_left
    intro j hj
    rw [Nat.zero_add]
  · rw [hdef]
    have := go_sleep_sum func recov 2 9 0
    have h9 : 2 * 2 ^ (0 + 9) = 1024 := by norm_num
    have h0 : 2 * 2 ^ (0 : ℕ) = 2 := by norm_num
    omega
  · intro e' hall hlast
    rw [hdef]
    exact go_exhaust func recov 2 9 0 e'
      (fun j hj1 hj2 => hall j (by omega)) hlast

/-- Witness for C4 at the always-failing function: with every attempt
raising a recoverable `TileSourceError`, the run re-raises that error and
makes at most 10 calls. -/
theorem c4_witness :
    (exp_backoff (fun _ => (Except.error SeedError.tileSource : Except SeedError Unit))
        10 2 seed_worker_exceptions).outcome =
      Except.error SeedError.tileSource ∧
    (exp_backoff (fun _ => (Except.error SeedError.tileSource : Except SeedError Unit))
        10 2 seed_worker_exceptions).calls ≤ 10 :=
  ⟨(c4_theorem (fun _ => (Except.error SeedError.tileSource : Except SeedError Unit))
      seed_worker_exceptions).2.2.2 SeedError.tileSource
      (fun _ _ => ⟨SeedError.tileSource, rfl, rfl⟩) rfl,
   (c4_theorem (fun _ => (Except.error SeedError.tileSource : Except SeedError Unit))
      seed_worker_exceptions).1⟩

/-- C5: `exp_backoff`, as invoked by `SeedWorker.run` (`max_repeat=10`,
`start=2`, `exceptions=(TileSourceError, IOError)`), immediately
propagates any non-recoverable error: if the first `k` attempts fail with
recoverable errors and attempt `k` (0-based) raises an error outside the
exceptions tuple, the run ends with exactly that error after `k + 1`
calls and only the `k` sleeps of the earlier recoverable failures — no
sleep and no further invocation follow it.  The recoverable set is
exactly `{TileSourceError, IOError}`. -/
theorem c5_theorem (g : ℕ → Except SeedError Unit) (k : ℕ) (e : SeedError)
    (hk : k < 10)
    (hpre : ∀ j, j < k →
      ∃ ej, seed_worker_exceptions ej = true ∧ g j = Except.error ej)
    (hke : g k = Except.error e)
    (hnr : seed_worker_exceptions e = false) :
    (seed_worker_load g).outcome = Except.error e ∧
    (seed_worker_load g).calls = k + 1 ∧
    (seed_worker_load g).sleeps.length = k ∧
    (∀ e2, seed_worker_exceptions e2 = true ↔
      (e2 = SeedError.tileSource ∨ e2 = SeedError.io)) := by
  have hdef : seed_worker_load g =
      exp_backoff_go g seed_worker_exceptions 2 0 9 := rfl
  have hrun := go_fatal_at g seed_worker_exceptions 2 k 9 0 e (by omega)
    (fun j hj1 hj2 => hpre j (by omega))
    (by rw [Nat.zero_add]; exact hke) hnr
  rw [hdef, hrun]
  refine ⟨rfl, rfl, ?_, ?_⟩
  · dsimp only
    rw [List.length_map, List.length_range]
  · intro e2
    cases e2 <;> simp [seed_worker_exceptions]

/-- Witness for C5: first attempt fails with a recoverable
`TileSourceError`, second with the non-recoverable `other`; the run stops
with `other` after exactly 2 calls. -/
theorem c5_witness :
    (seed_worker_load (fun j => if j = 0
        then Except.error SeedError.tileSource
        else Except.error SeedError.other)).outcome =
      Except.error SeedError.other ∧
    (seed_worker_load (fun j => if j = 0
        then Except.error SeedError.tileSource
        else Except.error SeedError.other)).calls = 2 :=
  have h := c5_theorem (fun j => if j = 0
      then Except.error SeedError.tileSource
      else Except.error SeedError.other) 1 SeedError.other (by omega)
    (fun j hj => ⟨SeedError.tileSource, rfl, by
      obtain rfl : j = 0 := by omega
      rfl⟩) rfl rfl
  ⟨h.1, h.2.1⟩

/-- C6: the tabulated `status_symbol` contract:
`status_symbol(0, 1) = '0'`; for `total = 4` the values at `i = 0..4` are
`.`, `o`, `O`, `0`, `X`; for `total = 10` the values at `i = 0..10` are
`.`, `.`, `o`, `o`, `o`, `O`, `O`, `0`, `0`, `0`, `X`; and for every
`total ≥ 1`, `status_symbol(total, total) = 'X'`. -/
theorem c6_theorem :
    status_symbol 0 1 = some '0' ∧
    (List.range 5).map (fun i => status_symbol (i : ℤ) 4) =
      [some '.', some 'o', some 'O', some '0', some 'X'] ∧
    (List.range 11).map (fun i => status_symbol (i : ℤ) 10) =
      [some '.', some '.', some 'o', some 'o', some 'o', some 'O',
       some 'O', some '0', some '0', some '0', some 'X'] ∧
    (∀ total : ℤ, 1 ≤ total → status_symbol total total = some 'X') :=
  ⟨by decide, by decide, by decide, fun total h => status_symbol_last total h⟩

/-- Witness for C6 at `total = 5`. -/
theorem c6_witness : status_symbol 5 5 = some 'X' :=
  c6_theorem.2.2.2 5 (by norm_num)

/-- C8 (amended): the traversal (`_seed` lines 130-131) never descends
into a `None` placeholder — every coverage decision and recursion is made
on a `some` entry of the affected-tiles list, so every sub-seed bbox comes
from an actual tile; but the claim's second half is false of the code:
`SeedWorker.run` (lines 67-76) passes the dequeued `tiles` list to
`cache.cache_mgr.load_tile_coords` unchanged, placeholders included. -/
theorem c8_theorem :
    (∀ (B : BBox) (full : Bool) (sts : List (Option Tile)) (p : BBox × ℤ),
      p ∈ sub_seeds B full sts → ∃ u : Tile, some u ∈ sts ∧ p.1 = meta_bbox u) ∧
    (∀ (id : List Char) (tiles : List (Option Tile)),
      seed_worker_step (some (id, tiles)) = WorkerAction.load tiles) :=
  ⟨fun _ _ _ _ hp => sub_seeds_mem_src hp, fun _ _ => rfl⟩

/-- Witness for C8's first half on a singleton affected list. -/
theorem c8_witness :
    ∃ u : Tile, some u ∈ [some (⟨0, 0, 0⟩ : Tile)] ∧
      (meta_bbox ⟨0, 0, 0⟩, (-1 : ℤ)).1 = meta_bbox u :=
  c8_theorem.1 ⟨0, 0, 1, 1⟩ false [some ⟨0, 0, 0⟩]
    (meta_bbox ⟨0, 0, 0⟩, -1) (by decide)

/-- C8 counterexample: for the bbox `(-1, 0, 1/2, 1/2)` at the single
level 0, the root batch handed to the pool is
`[None, some (0,0,0)]` — it still contains the placeholder — and the
worker passes that very list, placeholder included, to
`load_tile_coords`.  So placeholders are NOT skipped by every consumer:
the worker is a consumer that forwards them. -/
theorem c8_counterexample :
    (seed_location_run ⟨-1, 0, 1 / 2, 1 / 2⟩ 0 0).emits =
      [([], [none, some ⟨0, 0, 0⟩])] ∧
    seed_worker_step (some ([], [none, some ⟨0, 0, 0⟩])) =
      WorkerAction.load [none, some ⟨0, 0, 0⟩] ∧
    (none : Option Tile) ∈ [(none : Option Tile), some ⟨0, 0, 0⟩] := by
  refine ⟨by decide, rfl, by decide⟩

/-- C9: in the cooperative pool model, (i) the queue contents seen by the
workers are every real item in submission order followed by exactly `n`
sentinels (`stop` enqueues them after all real items), and the sentinel
count is `n`; (ii) under every schedule, every worker consumes at most
one sentinel and is dead exactly when it has consumed one; (iii) under
every schedule that drains the queue — which is what `stop`'s joins wait
for — every worker has exited having consumed exactly one sentinel; and
(iv) a concrete two-worker run drains the queue with both workers
exited. -/
theorem c9_theorem (E : List (List Char × List (Option Tile))) (n : ℕ)
    (sched : List ℕ) :
    (seed_pool_trace E n = E.map some ++ List.replicate n none ∧
      (seed_pool_trace E n).count none = n) ∧
    (∀ w ∈ (pool_run (init_workers n) (seed_pool_trace E n) sched).1,
      w.sentinels ≤ 1 ∧ (w.alive = false ↔ w.sentinels = 1)) ∧
    ((pool_run (init_workers n) (seed_pool_trace E n) sched).2 = [] →
      ∀ w ∈ (pool_run (init_workers n) (seed_pool_trace E n) sched).1,
        w.alive = false ∧ w.sentinels = 1) ∧
    ((pool_run (init_workers 2) (seed_pool_trace [] 2) [0, 1]).2 = [] ∧
      ∀ w ∈ (pool_run (init_workers 2) (seed_pool_trace [] 2) [0, 1]).1,
        w.alive = false) := by
  refine ⟨⟨rfl, count_none_trace E n⟩, ?_, ?_, by decide⟩
  · exact pool_run_inv sched (init_workers n) (seed_pool_trace E n)
      (init_workers_inv n)
  · exact drained_all_exited E n sched

/-- Witness for C9: one worker, one real item, a draining schedule; the
final worker state is dead with exactly one consumed sentinel. -/
theorem c9_witness :
    (WorkerSt.mk false [([], [])] 1).alive = false ∧
    (WorkerSt.mk false [([], [])] 1).sentinels = 1 :=
  (c9_theorem [([], [])] 1 [0, 0]).2.2.1 (by decide)
    (WorkerSt.mk false [([], [])] 1) (by decide)

/-- C10 (amended): for `total ≥ 1` and `0 ≤ i ≤ total`, `status_symbol`
returns a character and never the blank at index 0, and for `i < total`
the symbol-table index `⌈(i+1)/(total/4)⌉` lies in `[1, 4]`.  But the
`total = 0` half of the claim is wrong: the guard `0 < i+1 > total` is
tested BEFORE the division, so for every `i ≥ 0` the call returns `'X'`
without dividing; the `ZeroDivisionError` (modelled as `none`) is reached
only for `i ≤ -1`. -/
theorem c10_theorem :
    (∀ i total : ℤ, 1 ≤ total → 0 ≤ i → i ≤ total →
      ∃ c, status_symbol i total = some c ∧ c ≠ ' ') ∧
    (∀ i total : ℤ, 1 ≤ total → 0 ≤ i → i < total →
      1 ≤ ⌈((i + 1 : ℤ) : ℚ) / ((total : ℚ) / 4)⌉ ∧
      ⌈((i + 1 : ℤ) : ℚ) / ((total : ℚ) / 4)⌉ ≤ 4) ∧
    (∀ i : ℤ, i ≤ -1 → status_symbol i 0 = none) ∧
    (∀ i : ℤ, 0 ≤ i → status_symbol i 0 = some 'X') := by
  refine ⟨?_, ?_, ?_, ?_⟩
  · intro i total h1 h0 hle
    by_cases hi : i = total
    · subst hi
      exact ⟨'X', status_symbol_last i h1, by decide⟩
    · have hk := status_index_bounds i total h1 h0 (by omega)
      simp only [status_symbol]
      rw [if_neg (by omega : ¬(0 < i + 1 ∧ i + 1 > total)),
        if_neg (by omega : ¬total = 0)]
      obtain ⟨hk1, hk2⟩ := hk
      set k := ⌈((i + 1 : ℤ) : ℚ) / ((total : ℚ) / 4)⌉ with hkdef
      interval_cases k
      · exact ⟨'.', rfl, by decide⟩
      · exact ⟨'o', rfl, by decide⟩
      · exact ⟨'O', rfl, by decide⟩
      · exact ⟨'0', rfl, by decide⟩
  · intro i total h1 h0 hlt
    exact status_index_bounds i total h1 h0 (by omega)
  · intro i hi
    simp only [status_symbol]
    rw [if_neg (by omega : ¬(0 < i + 1 ∧ i + 1 > 0))]
    simp
  · intro i hi
    simp only [status_symbol]
    rw [if_pos ⟨by omega, by omega⟩]

/-- Witness for C10 at `i = 0`, `total = 4`. -/
theorem c10_witness :
    ∃ c, status_symbol 0 4 = some c ∧ c ≠ ' ' :=
  c10_theorem.1 0 4 (by norm_num) (by norm_num) (by norm_num)

/-- C10 counterexample: `status_symbol(0, 0)` does not raise
`ZeroDivisionError` — the guard `0 < i+1 > total` fires first and
returns `'X'`. -/
theorem c10_counterexample :
    status_symbol 0 0 = some 'X' ∧ status_symbol 0 0 ≠ none := by
  refine ⟨by decide, by decide⟩

end ClaimProofs

end Mapproxy
